import Mathlib

/-!
Verification of the sandboxed benchmark-harness core: the sandbox path
resolver, the JSON envelope parser/validator, the agent-loop dispatch and
retry logic, the test-runner subprocess wrappers, and the `fs_find_env`
grader.  Python strings are modelled as `List Char`; fallible Python code
returning or raising becomes `Except`/`Option`.  Filesystem and network
effects are out of scope: resolution of `..` components is modelled
lexically (the sandbox root is already fully resolved), and external
services appear as behaviour parameters.
-/

namespace RlTasks

/-! ## Python string primitives (modelled on `List Char`) -/

/-- The characters stripped by Python's `str.strip()` with no argument. -/
def pyWsChars : List Char := [' ', '\t', '\n', '\r', '\x0b', '\x0c']

/-- Whether `str.strip()` removes this character. -/
def isPyWs (c : Char) : Bool := pyWsChars.contains c

/-- Python `str.strip()`: drop leading and trailing whitespace. -/
def pyStrip (s : List Char) : List Char :=
  ((s.dropWhile isPyWs).reverse.dropWhile isPyWs).reverse

/-- One character of `candidate.replace("\\", "/")`. -/
def replBackslash (c : Char) : Char := if c = '\\' then '/' else c

/-- Python `str.replace(pat, "")` for a nonempty pattern `p :: ps`:
leftmost, non-overlapping removal of every occurrence. -/
def removeAllF (p : Char) (ps : List Char) : Nat → List Char → List Char
  | _, [] => []
  | 0, l => l
  | fuel + 1, c :: rest =>
    if (p :: ps).isPrefixOf (c :: rest) then
      removeAllF p ps fuel (rest.drop ps.length)
    else
      c :: removeAllF p ps fuel rest

/-- Python `str.replace(pat, "")` for a nonempty pattern `p :: ps`:
each removal or kept character consumes at least one input character,
so fuel equal to the input length always suffices. -/
def removeAll (p : Char) (ps : List Char) (l : List Char) : List Char :=
  removeAllF p ps l.length l

/-- Split a string at every `/`, keeping empty groups (Python
`s.split("/")` would; `pathlib` then discards empties and `.`). -/
def splitSlash : List Char → List (List Char)
  | [] => [[]]
  | c :: rest =>
    if c = '/' then [] :: splitSlash rest
    else
      match splitSlash rest with
      | [] => [[c]]
      | g :: gs => (c :: g) :: gs

/-- `PurePosixPath(candidate).parts` restricted to the named components:
empty and `.` segments are dropped (faithful for testing membership of a
component such as `..` in a relative path). -/
def pathParts (s : List Char) : List (List Char) :=
  (splitSlash s).filter (fun g => g ≠ [] ∧ g ≠ ['.'])

/-- The `while candidate.startswith("./"): candidate = candidate[2:]` loop. -/
def stripDotSlash : List Char → List Char
  | '.' :: '/' :: rest => stripDotSlash rest
  | s => s

/-! ## Sandbox path resolver (`src/core/tools.py`) -/

/-- `SandboxError`, raised when a tool attempts to leave the sandbox. -/
inductive SandboxError where
  /-- message "Path escapes sandbox" -/
  | escapes
deriving DecidableEq, Repr

/-- The marker `"{HPY_SANDBOX}"`. -/
def markerBrace : List Char := "{HPY_SANDBOX}".toList

/-- The marker `"$HPY_SANDBOX"`. -/
def markerDollar : List Char := "$HPY_SANDBOX".toList

/-- The marker `"${HPY_SANDBOX}"`. -/
def markerDollarBrace : List Char := "${HPY_SANDBOX}".toList

/-- Remove one marker (all markers are nonempty constants). -/
def removeMarker (m : List Char) (s : List Char) : List Char :=
  match m with
  | [] => s
  | p :: ps => removeAll p ps s

/-- Stages of `_normalize_user_path` applied to the already-stripped,
nonempty candidate: backslash replacement, marker stripping, sandbox
prefix removal, `lstrip("/")`, leading-`./` removal.  `sandboxPosix` is
`sandbox.as_posix()` as characters. -/
def normStages (stripped : List Char) (sandboxPosix : List Char) : List Char :=
  let c1 := stripped.map replBackslash
  let c2 := removeMarker markerBrace c1
  let c3 := removeMarker markerDollar c2
  let c4 := removeMarker markerDollarBrace c3
  let c5 := if sandboxPosix.isPrefixOf c4 then c4.drop sandboxPosix.length else c4
  let c6 := c5.dropWhile (· = '/')
  stripDotSlash c6

/-- The `..` path component. -/
def dotdot : List Char := ['.', '.']

/-- `_normalize_user_path(path, sandbox)`: convert a user supplied path to
a sandbox relative one, failing when a decomposed component is `..`. -/
def normalize_user_path (path : List Char) (sandboxPosix : List Char) :
    Except SandboxError (List Char) :=
  let candidate := pyStrip path
  if candidate = [] then .ok []
  else
    let c := normStages candidate sandboxPosix
    if dotdot ∈ pathParts c then .error .escapes else .ok c

/-- Lexical `..` resolution, the behaviour of `Path.resolve()` on a
symlink-free tree: `..` pops the last component and never climbs above
the filesystem root. -/
def resolveDots (parts : List (List Char)) : List (List Char) :=
  parts.foldl (fun acc part => if part = dotdot then acc.dropLast else acc ++ [part]) []

/-- `Path.parents` of an absolute path given by its components: every
proper ancestor, i.e. every proper component-list prefix. -/
def parentsOf (p : List (List Char)) : List (List (List Char)) :=
  (List.range p.length).map (fun k => p.take k)

/-- `sandbox / Path(path)`: joining keeps only `path` when it is
absolute (leading `/`), otherwise appends its components to the root. -/
def joinParts (path : List Char) (sandbox : List (List Char)) : List (List Char) :=
  if path.head? = some '/' then pathParts path else sandbox ++ pathParts path

/-- `_resolve_in_sandbox(path, sandbox)`: join to the sandbox root,
resolve, and require the result to be the root or a descendant. -/
def resolve_in_sandbox (path : List Char) (sandbox : List (List Char)) :
    Except SandboxError (List (List Char)) :=
  let candidate := resolveDots (joinParts path sandbox)
  if sandbox ∉ parentsOf candidate ∧ candidate ≠ sandbox then .error .escapes
  else .ok candidate

/-! ### Containment lemmas -/

theorem mem_parentsOf_iff {sb c : List (List Char)} :
    sb ∈ parentsOf c ↔ ∃ k, k < c.length ∧ sb = c.take k := by
  simp [parentsOf, eq_comm]

theorem parentsOf_or_eq_iff_isPrefix {sb c : List (List Char)} :
    (sb ∈ parentsOf c ∨ c = sb) ↔ sb <+: c := by
  constructor
  · rintro (h | rfl)
    · obtain ⟨k, -, rfl⟩ := mem_parentsOf_iff.mp h
      exact List.take_prefix k c
    · exact List.prefix_refl c
  · intro h
    rcases eq_or_ne c sb with heq | hne
    · exact Or.inr heq
    · left
      refine mem_parentsOf_iff.mpr ⟨sb.length, ?_, (List.prefix_iff_eq_take.mp h)⟩
      rcases lt_or_eq_of_le (List.IsPrefix.length_le h) with hlt | hlen
      · exact hlt
      · exact absurd (List.IsPrefix.eq_of_length h hlen) hne.symm

/-! ### Structural lemmas about the normalization stages -/

theorem removeAllF_sublist (p : Char) (ps : List Char) :
    ∀ fuel l, List.Sublist (removeAllF p ps fuel l) l := by
  intro fuel
  induction fuel with
  | zero => intro l; cases l <;> exact List.Sublist.refl _
  | succ fuel ih =>
    intro l
    cases l with
    | nil => exact List.Sublist.refl _
    | cons c rest =>
      rw [removeAllF]
      split
      · exact ((ih _).trans (List.drop_sublist ps.length rest)).trans
          (List.sublist_cons_self c rest)
      · exact (ih rest).cons₂ c

theorem removeAll_sublist (p : Char) (ps : List Char) (l : List Char) :
    List.Sublist (removeAll p ps l) l :=
  removeAllF_sublist p ps l.length l

theorem removeAllF_of_not_contained (p : Char) (ps : List Char) :
    ∀ fuel l, ¬ (p :: ps) <:+: l → removeAllF p ps fuel l = l := by
  intro fuel
  induction fuel with
  | zero => intro l h; cases l <;> rfl
  | succ fuel ih =>
    intro l h
    cases l with
    | nil => rfl
    | cons c rest =>
      rw [removeAllF]
      have hpre : ¬ (p :: ps).isPrefixOf (c :: rest) = true := fun hp =>
        h ((List.isPrefixOf_iff_prefix.mp hp).isInfix)
      rw [if_neg hpre, ih rest (fun hi => h (List.infix_cons hi))]

theorem removeAll_of_not_contained (p : Char) (ps : List Char) (l : List Char)
    (h : ¬ (p :: ps) <:+: l) : removeAll p ps l = l :=
  removeAllF_of_not_contained p ps l.length l h

theorem removeMarker_of_not_contained (m : List Char) (l : List Char)
    (h : ¬ m <:+: l) : removeMarker m l = l := by
  cases m with
  | nil => rfl
  | cons p ps => exact removeAll_of_not_contained p ps l h

theorem stripDotSlash_sublist (l : List Char) : List.Sublist (stripDotSlash l) l := by
  induction l using stripDotSlash.induct with
  | case1 rest ih =>
    rw [stripDotSlash]
    exact ih.trans ((List.sublist_cons_self _ rest).trans (List.sublist_cons_self _ _))
  | case2 s hs =>
    rw [stripDotSlash.eq_def]
    split
    · rename_i r; exact absurd rfl (hs r)
    · exact List.Sublist.refl s

/-- The `./`-stripping loop never leaves a leading `./`. -/
theorem stripDotSlash_no_lead (l : List Char) :
    ∀ rest, stripDotSlash l ≠ '.' :: '/' :: rest := by
  induction l using stripDotSlash.induct with
  | case1 rest ih => rw [stripDotSlash]; exact ih
  | case2 s hs =>
    rw [stripDotSlash.eq_def]
    split
    · rename_i r; exact absurd rfl (hs r)
    · intro rest h
      exact absurd h (hs rest)

theorem stripDotSlash_eq_self (l : List Char) (h : ∀ rest, l ≠ '.' :: '/' :: rest) :
    stripDotSlash l = l := by
  rw [stripDotSlash.eq_def]
  split
  · exact absurd rfl (h _)
  · rfl

theorem map_replBackslash_eq_self (l : List Char) (h : '\\' ∉ l) :
    l.map replBackslash = l := by
  induction l with
  | nil => rfl
  | cons c rest ih =>
    simp only [List.mem_cons, not_or] at h
    simp only [List.map_cons, replBackslash, if_neg (Ne.symm h.1), ih h.2]

theorem not_backslash_mem_map (l : List Char) : '\\' ∉ l.map replBackslash := by
  intro h
  obtain ⟨c, -, hc⟩ := List.mem_map.mp h
  by_cases hb : c = '\\' <;> simp [replBackslash, hb] at hc

/-! ## C1 -/

/-- C1: every caller-supplied path whose decomposed components still
contain a `..` segment after the normalization stages makes
`_normalize_user_path` fail with a `SandboxError`, and
`_resolve_in_sandbox` succeeds only when the joined, resolved result is
the sandbox root or one of its descendants (a component-list prefix). -/
theorem normalize_and_resolve_contained (p : List Char) (sb : List Char)
    (sbParts : List (List Char)) :
    (dotdot ∈ pathParts (normStages (pyStrip p) sb) →
      normalize_user_path p sb = .error .escapes)
    ∧ (∀ r, resolve_in_sandbox p sbParts = .ok r → sbParts <+: r) := by
  constructor
  · intro hmem
    unfold normalize_user_path
    by_cases hempty : pyStrip p = []
    · exfalso
      rw [hempty] at hmem
      have hstages : normStages [] sb = [] := by
        unfold normStages
        simp only [List.map_nil]
        have h1 : removeMarker markerBrace [] = [] := by
          cases hb : markerBrace <;> rfl
        have h2 : removeMarker markerDollar [] = [] := by
          cases hb : markerDollar <;> rfl
        have h3 : removeMarker markerDollarBrace [] = [] := by
          cases hb : markerDollarBrace <;> rfl
        rw [h1, h2, h3, List.drop_nil, ite_self, List.dropWhile_nil]
        rfl
      rw [hstages] at hmem
      simp [pathParts, splitSlash, dotdot] at hmem
    · rw [if_neg hempty, if_pos hmem]
  · intro r hok
    unfold resolve_in_sandbox at hok
    simp only [] at hok
    split at hok
    · exact absurd hok (by simp)
    · rename_i hcond
      rw [not_and_or, not_not, not_ne_iff] at hcond
      injection hok with hok
      subst hok
      rcases hcond with h | h
      · exact parentsOf_or_eq_iff_isPrefix.mp (Or.inl h)
      · exact parentsOf_or_eq_iff_isPrefix.mp (Or.inr h)

theorem normalize_and_resolve_contained_witness :
    normalize_user_path ("../../etc/passwd".toList) ("/tmp/run_1".toList) =
      .error .escapes
    ∧ ["tmp".toList, "run_1".toList] <+:
        ["tmp".toList, "run_1".toList, "a".toList, "b".toList] :=
  ⟨(normalize_and_resolve_contained ("../../etc/passwd".toList) ("/tmp/run_1".toList)
      []).1 (by decide),
   (normalize_and_resolve_contained ("a/b".toList) ("/tmp/run_1".toList)
      ["tmp".toList, "run_1".toList]).2
      ["tmp".toList, "run_1".toList, "a".toList, "b".toList] (by rfl)⟩

/-! ## C7 -/

theorem removeMarker_sublist (m l : List Char) :
    List.Sublist (removeMarker m l) l := by
  cases m with
  | nil => exact List.Sublist.refl l
  | cons p ps => exact removeAll_sublist p ps l

/-- Every normalization result is `stripDotSlash` of a sublist of the
backslash-replaced input. -/
theorem normStages_sublist_map (s sb : List Char) :
    ∃ t, List.Sublist t (s.map replBackslash) ∧ normStages s sb = stripDotSlash t := by
  unfold normStages
  refine ⟨_, ?_, rfl⟩
  have h2 := removeMarker_sublist markerBrace (s.map replBackslash)
  have h3 := removeMarker_sublist markerDollar
    (removeMarker markerBrace (s.map replBackslash))
  have h4 := removeMarker_sublist markerDollarBrace
    (removeMarker markerDollar (removeMarker markerBrace (s.map replBackslash)))
  have h5 : List.Sublist
      (if sb.isPrefixOf (removeMarker markerDollarBrace
          (removeMarker markerDollar (removeMarker markerBrace (s.map replBackslash)))) then
        (removeMarker markerDollarBrace
          (removeMarker markerDollar (removeMarker markerBrace (s.map replBackslash)))).drop
            sb.length
       else
        removeMarker markerDollarBrace
          (removeMarker markerDollar (removeMarker markerBrace (s.map replBackslash))))
      (removeMarker markerDollarBrace
        (removeMarker markerDollar (removeMarker markerBrace (s.map replBackslash)))) := by
    split
    · exact List.drop_sublist _ _
    · exact List.Sublist.refl _
  exact ((List.dropWhile_sublist _).trans h5).trans ((h4.trans h3).trans h2)

theorem normStages_no_backslash (s sb : List Char) : '\\' ∉ normStages s sb := by
  obtain ⟨t, hsub, heq⟩ := normStages_sublist_map s sb
  rw [heq]
  intro hmem
  exact not_backslash_mem_map s (hsub.subset ((stripDotSlash_sublist t).subset hmem))

theorem normStages_stripDotSlash_fixed (s sb : List Char) :
    stripDotSlash (normStages s sb) = normStages s sb := by
  obtain ⟨t, -, heq⟩ := normStages_sublist_map s sb
  rw [heq]
  exact stripDotSlash_eq_self _ (stripDotSlash_no_lead t)

/-- C7 counterexample: `".//a"` normalizes to `"/a"` (the `./`-stripping
loop exposes a slash only after the `lstrip("/")` stage already ran), and
normalizing `"/a"` gives `"a"`, so normalization is not idempotent on its
own outputs. -/
theorem normalize_user_path_not_idempotent :
    normalize_user_path (".//a".toList) ("/tmp/run_1".toList) = .ok ("/a".toList)
    ∧ normalize_user_path ("/a".toList) ("/tmp/run_1".toList) = .ok ("a".toList)
    ∧ "/a".toList ≠ "a".toList :=
  ⟨by rfl, by rfl, by decide⟩

/-- C7 amended: normalization is idempotent on an already-normalized
output `p` provided `p` is unchanged by whitespace stripping, contains no
occurrence of a sandbox marker, and does not begin with `/` (the sandbox
posix path is absolute, so it then cannot be a prefix either). -/
theorem normalize_user_path_idem (x p sb : List Char)
    (himg : normalize_user_path x sb = .ok p)
    (hstrip : pyStrip p = p)
    (hm1 : ¬ markerBrace <:+: p)
    (hm2 : ¬ markerDollar <:+: p)
    (hm3 : ¬ markerDollarBrace <:+: p)
    (hslash : p.head? ≠ some '/')
    (hsb : sb.head? = some '/') :
    normalize_user_path p sb = .ok p := by
  unfold normalize_user_path at himg
  simp only [] at himg
  split at himg
  · -- the stripped input was empty: the result is the empty path
    injection himg with himg
    subst himg
    rfl
  · split at himg
    · exact absurd himg (by simp)
    · rename_i hne hnodd
      injection himg with himg
      -- second run: every stage fixes p
      by_cases hpempty : p = []
      · subst hpempty
        rfl
      · have hback : '\\' ∉ p := by rw [← himg]; exact normStages_no_backslash _ _
        have hfix : normStages p sb = p := by
          simp only [normStages]
          rw [map_replBackslash_eq_self p hback]
          rw [removeMarker_of_not_contained _ _ hm1, removeMarker_of_not_contained _ _ hm2,
            removeMarker_of_not_contained _ _ hm3]
          have hnp : ¬ sb.isPrefixOf p = true := by
            intro h
            obtain ⟨t, ht⟩ := List.isPrefixOf_iff_prefix.mp h
            cases sb with
            | nil => exact absurd hsb (by simp)
            | cons a as =>
              have ha : a = '/' := by simpa using hsb
              exact hslash (by rw [← ht, ha]; rfl)
          rw [if_neg hnp]
          have hdw : p.dropWhile (fun c => c = '/') = p := by
            cases p with
            | nil => rfl
            | cons c t =>
              have hc : ¬ c = '/' := fun hcc => hslash (by rw [hcc]; rfl)
              simp [List.dropWhile_cons, hc]
          rw [hdw, ← himg, normStages_stripDotSlash_fixed]
        simp only [normalize_user_path]
        rw [hstrip, if_neg hpempty, hfix, if_neg (by rw [himg] at hnodd; exact hnodd)]

theorem normalize_user_path_idem_witness :
    normalize_user_path ("b/c".toList) ("/tmp/run_1".toList) = .ok ("b/c".toList) :=
  normalize_user_path_idem ("b/c".toList) ("b/c".toList) ("/tmp/run_1".toList)
    (by rfl) (by rfl) (by decide) (by decide) (by decide) (by decide) (by rfl)

/-! ## JSON values

Model of the JSON data handled by `json.loads` / `json.dumps` in
`src/core/json_io.py`.  Numbers are modelled as integers (floats,
`NaN`/`Infinity` literals and `\uXXXX` escapes are outside the model);
object literals follow Python `dict` semantics: a repeated key keeps its
first position and its last value. -/

inductive Json where
  | null
  | bool (b : Bool)
  | num (n : Int)
  | str (s : List Char)
  | arr (items : List Json)
  | obj (entries : List (List Char × Json))

/-- Well-formed values: every object's keys are distinct, as is true of
every value a Python `dict` can hold. -/
inductive WF : Json → Prop
  | null : WF .null
  | bool (b : Bool) : WF (.bool b)
  | num (n : Int) : WF (.num n)
  | str (s : List Char) : WF (.str s)
  | arr (items : List Json) : (∀ v ∈ items, WF v) → WF (.arr items)
  | obj (entries : List (List Char × Json)) :
      (entries.map Prod.fst).Nodup → (∀ e ∈ entries, WF e.2) → WF (.obj entries)

/-- The whitespace the JSON decoder skips between tokens. -/
def isJsonWs (c : Char) : Bool := c == ' ' || c == '\t' || c == '\n' || c == '\r'

/-- Skip inter-token whitespace. -/
def skipWs (s : List Char) : List Char := s.dropWhile isJsonWs

/-- Decode one backslash escape code (the `\uXXXX` form is not modelled). -/
def unescape : Char → Option Char
  | '"' => some '"'
  | '\\' => some '\\'
  | '/' => some '/'
  | 'b' => some '\x08'
  | 'f' => some '\x0c'
  | 'n' => some '\n'
  | 'r' => some '\r'
  | 't' => some '\t'
  | _ => none

/-- Body of a string literal after the opening quote, up to and including
the closing quote.  The flag records a pending backslash. -/
def parseStringBodyAux : Bool → List Char → Option (List Char × List Char)
  | _, [] => none
  | true, e :: rest =>
    (match unescape e with
     | none => none
     | some u =>
       match parseStringBodyAux false rest with
       | none => none
       | some (s, r) => some (u :: s, r))
  | false, c :: rest =>
    if c = '"' then some ([], rest)
    else if c = '\\' then parseStringBodyAux true rest
    else
      match parseStringBodyAux false rest with
      | none => none
      | some (s, r) => some (c :: s, r)

/-- Parse the body of a string literal after the opening quote. -/
def parseStringBody (s : List Char) : Option (List Char × List Char) :=
  parseStringBodyAux false s

/-- Numeric value of a decimal digit character. -/
def digitVal (c : Char) : Nat := c.toNat - 48

/-- Decimal value of a digit run. -/
def parseNatDigits (ds : List Char) : Nat := ds.foldl (fun a c => a * 10 + digitVal c) 0

/-- Parse an integer literal: optional `-`, then a greedy digit run. -/
def parseNumber (s : List Char) : Option (Json × List Char) :=
  let neg := s.head? = some '-'
  let s1 := if neg then s.tail else s
  let ds := s1.takeWhile Char.isDigit
  if ds = [] then none
  else
    some (.num (if neg then -(parseNatDigits ds : Int) else (parseNatDigits ds : Int)),
      s1.dropWhile Char.isDigit)

/-- Insert into a Python `dict` given as an ordered association list: a
present key keeps its position and takes the new value, a new key is
appended. -/
def dictInsert (k : List Char) (v : Json) (es : List (List Char × Json)) :
    List (List Char × Json) :=
  if es.any (fun e => e.1 = k) then
    es.map (fun e => if e.1 = k then (e.1, v) else e)
  else es ++ [(k, v)]

/-- Build a `dict` from parsed key/value pairs in order. -/
def dictize (pairs : List (List Char × Json)) : List (List Char × Json) :=
  pairs.foldl (fun acc e => dictInsert e.1 e.2 acc) []

/-- Match an expected literal spelling, returning the remaining input. -/
def expectChars : List Char → List Char → Option (List Char)
  | [], r => some r
  | _ :: _, [] => none
  | p :: ps, c :: r => if c = p then expectChars ps r else none

mutual

/-- One JSON value at the current position (no leading whitespace), the
recursion budgeted by fuel; one unit of fuel covers each nesting step.
The dispatch follows the scanner: look at the next character, compare
the literal spellings, otherwise try a number. -/
def parseVal : Nat → List Char → Option (Json × List Char)
  | 0, _ => none
  | fuel + 1, s =>
    match s with
    | [] => none
    | c :: r =>
      if c = '"' then
        match parseStringBody r with
        | none => none
        | some (cs, r2) => some (.str cs, r2)
      else if c = '\x7b' then
        let r1 := skipWs r
        if r1.head? = some '\x7d' then some (.obj [], r1.tail)
        else
          match parseMembers fuel r1 with
          | none => none
          | some (pairs, r2) => some (.obj (dictize pairs), r2)
      else if c = '[' then
        let r1 := skipWs r
        if r1.head? = some ']' then some (.arr [], r1.tail)
        else
          match parseElems fuel r1 with
          | none => none
          | some (items, r2) => some (.arr items, r2)
      else if c = 'n' then
        match expectChars ['u', 'l', 'l'] r with
        | some r2 => some (.null, r2)
        | none => none
      else if c = 't' then
        match expectChars ['r', 'u', 'e'] r with
        | some r2 => some (.bool true, r2)
        | none => none
      else if c = 'f' then
        match expectChars ['a', 'l', 's', 'e'] r with
        | some r2 => some (.bool false, r2)
        | none => none
      else if c = '-' || c.isDigit then parseNumber (c :: r)
      else none
termination_by structural fuel _ => fuel

/-- A nonempty `,`-separated element list including the closing `]`. -/
def parseElems : Nat → List Char → Option (List Json × List Char)
  | 0, _ => none
  | fuel + 1, s =>
    match parseVal fuel s with
    | none => none
    | some (v, r) =>
      match skipWs r with
      | ',' :: r2 =>
        (match parseElems fuel (skipWs r2) with
         | none => none
         | some (vs, r3) => some (v :: vs, r3))
      | ']' :: r2 => some ([v], r2)
      | _ => none
termination_by structural fuel _ => fuel

/-- A nonempty `,`-separated member list including the closing brace. -/
def parseMembers : Nat → List Char → Option (List (List Char × Json) × List Char)
  | 0, _ => none
  | fuel + 1, s =>
    match s with
    | '"' :: r =>
      (match parseStringBody r with
       | none => none
       | some (k, r1) =>
         match skipWs r1 with
         | ':' :: r2 =>
           (match parseVal fuel (skipWs r2) with
            | none => none
            | some (v, r3) =>
              match skipWs r3 with
              | ',' :: r4 =>
                (match parseMembers fuel (skipWs r4) with
                 | none => none
                 | some (es, r5) => some ((k, v) :: es, r5))
              | '\x7d' :: r4 => some ([(k, v)], r4)
              | _ => none)
         | _ => none)
    | _ => none
termination_by structural fuel _ => fuel

end

/-- `json.loads`: skip leading whitespace, parse one value, then require
only whitespace to follow.  The fuel bound (input length) is enough for
any nesting the input can express. -/
def loads (s : List Char) : Option Json :=
  let s1 := skipWs s
  match parseVal (s1.length + 1) s1 with
  | none => none
  | some (v, rest) => if skipWs rest = [] then some v else none

/-! ## `json.dumps` (default separators `", "` and `": "`) -/

/-- Escape one character of a string literal.  The model escapes the two
structural characters; control characters and non-ASCII text are emitted
literally (the decoder model accepts them literally too). -/
def escapeChar (c : Char) : List Char :=
  if c = '"' then ['\\', '"'] else if c = '\\' then ['\\', '\\'] else [c]

/-- Escape a whole string body. -/
def escapeStr (s : List Char) : List Char := s.foldr (fun c acc => escapeChar c ++ acc) []

/-- The character of a decimal digit. -/
def digitChar : Nat → Char
  | 0 => '0' | 1 => '1' | 2 => '2' | 3 => '3' | 4 => '4'
  | 5 => '5' | 6 => '6' | 7 => '7' | 8 => '8' | _ => '9'

/-- Decimal digits of `n` in front of `acc`; fuel `n + 1` suffices. -/
def printNatAux : Nat → Nat → List Char → List Char
  | 0, _, acc => acc
  | fuel + 1, n, acc =>
    if n < 10 then digitChar n :: acc
    else printNatAux fuel (n / 10) (digitChar (n % 10) :: acc)

/-- Decimal representation of a natural number. -/
def printNat (n : Nat) : List Char := printNatAux (n + 1) n []

/-- Decimal representation of an integer. -/
def printInt (n : Int) : List Char :=
  if n < 0 then '-' :: printNat (-n).toNat else printNat n.toNat

mutual

/-- Serialize one JSON value. -/
def printVal : Json → List Char
  | .num n => printInt n
  | .str s => '"' :: (escapeStr s ++ ['"'])
  | .bool false => ['f', 'a', 'l', 's', 'e']
  | .bool true => ['t', 'r', 'u', 'e']
  | .null => ['n', 'u', 'l', 'l']
  | .arr [] => ['[', ']']
  | .arr (v :: vs) => '[' :: (printElems v vs ++ [']'])
  | .obj [] => ['\x7b', '\x7d']
  | .obj (e :: es) => '\x7b' :: (printMembers e es ++ ['\x7d'])
termination_by v => sizeOf v
decreasing_by all_goals (simp_wf <;> omega)

/-- Serialize a nonempty element list, `", "`-separated. -/
def printElems : Json → List Json → List Char
  | v, [] => printVal v
  | v, w :: ws => printVal v ++ (',' :: ' ' :: printElems w ws)
termination_by v vs => 1 + sizeOf v + sizeOf vs
decreasing_by all_goals (simp_wf <;> omega)

/-- Serialize a nonempty member list, `", "`-separated, `": "` after keys. -/
def printMembers : (List Char × Json) → List (List Char × Json) → List Char
  | (k, v), [] => '"' :: (escapeStr k ++ ('"' :: ':' :: ' ' :: printVal v))
  | (k, v), f :: fs =>
    ('"' :: (escapeStr k ++ ('"' :: ':' :: ' ' :: printVal v)))
      ++ (',' :: ' ' :: printMembers f fs)
termination_by e es => 1 + sizeOf e + sizeOf es
decreasing_by all_goals (simp_wf <;> omega)

end

/-- `json.dumps` with its default separators. -/
def dumps (v : Json) : List Char := printVal v

mutual

/-- Nesting fuel needed to parse a value: one unit per nesting step,
bounded by the length of the serialized form. -/
def sizeV : Json → Nat
  | .null => 1
  | .bool _ => 1
  | .num _ => 1
  | .str _ => 1
  | .arr [] => 1
  | .arr (v :: vs) => 1 + sizeL v vs
  | .obj [] => 1
  | .obj (e :: es) => 1 + sizeM e es
termination_by v => sizeOf v
decreasing_by all_goals (simp_wf <;> omega)

/-- Fuel needed for a nonempty element list. -/
def sizeL : Json → List Json → Nat
  | v, [] => sizeV v + 1
  | v, w :: ws => sizeV v + 1 + sizeL w ws
termination_by v vs => 1 + sizeOf v + sizeOf vs
decreasing_by all_goals (simp_wf <;> omega)

/-- Fuel needed for a nonempty member list. -/
def sizeM : (List Char × Json) → List (List Char × Json) → Nat
  | (_, v), [] => sizeV v + 1
  | (_, v), f :: fs => sizeV v + 1 + sizeM f fs
termination_by e es => 1 + sizeOf e + sizeOf es
decreasing_by all_goals (simp_wf <;> omega)

end

theorem one_le_sizeV (v : Json) : 1 ≤ sizeV v := by
  cases v with
  | arr items => cases items <;> simp [sizeV]
  | obj entries => cases entries <;> simp [sizeV]
  | _ => simp [sizeV]

theorem one_le_sizeL (v : Json) (vs : List Json) : 1 ≤ sizeL v vs := by
  cases vs <;> simp [sizeL] <;> omega

theorem one_le_sizeM (e : List Char × Json) (es : List (List Char × Json)) :
    1 ≤ sizeM e es := by
  obtain ⟨k, v⟩ := e
  cases es <;> simp [sizeM] <;> omega

/-! ### Round-trip lemmas: digits -/

theorem isDigit_digitChar (d : Nat) : (digitChar d).isDigit = true := by
  unfold digitChar
  split <;> rfl

theorem digitVal_digitChar {d : Nat} (h : d < 10) : digitVal (digitChar d) = d := by
  interval_cases d <;> rfl

theorem isJsonWs_eq_false_of_isDigit {c : Char} (h : c.isDigit = true) :
    isJsonWs c = false := by
  by_cases h1 : c = ' '
  · subst h1; exact absurd h (by decide)
  · by_cases h2 : c = '\t'
    · subst h2; exact absurd h (by decide)
    · by_cases h3 : c = '\n'
      · subst h3; exact absurd h (by decide)
      · by_cases h4 : c = '\r'
        · subst h4; exact absurd h (by decide)
        · simp [isJsonWs, h1, h2, h3, h4]

/-- Fold a digit string onto an accumulator. -/
theorem printNatAux_spec :
    ∀ fuel n acc, n < fuel →
      ∃ ds, printNatAux fuel n acc = ds ++ acc ∧ ds ≠ [] ∧
        (∀ c ∈ ds, c.isDigit = true) ∧
        ∀ a : Nat, List.foldl (fun x c => x * 10 + digitVal c) a ds =
          a * 10 ^ ds.length + n := by
  intro fuel
  induction fuel with
  | zero => intro n acc hn; omega
  | succ fuel ih =>
    intro n acc hn
    rw [printNatAux]
    by_cases h10 : n < 10
    · rw [if_pos h10]
      refine ⟨[digitChar n], rfl, by simp, ?_, ?_⟩
      · intro c hc
        rw [List.mem_singleton] at hc
        subst hc
        exact isDigit_digitChar n
      · intro a
        simp [digitVal_digitChar h10]
    · rw [if_neg h10]
      have hdiv : n / 10 < n := Nat.div_lt_self (by omega) (by omega)
      obtain ⟨ds, heq, hne, hdig, hfold⟩ := ih (n / 10) (digitChar (n % 10) :: acc)
        (by omega)
      refine ⟨ds ++ [digitChar (n % 10)], ?_, by simp, ?_, ?_⟩
      · rw [heq, List.append_assoc]
        rfl
      · intro c hc
        rcases List.mem_append.mp hc with h | h
        · exact hdig c h
        · rw [List.mem_singleton] at h
          subst h
          exact isDigit_digitChar _
      · intro a
        rw [List.foldl_append, hfold a]
        have hmod : n % 10 < 10 := Nat.mod_lt n (by omega)
        have hdm : n / 10 * 10 + n % 10 = n := by
          have := Nat.div_add_mod n 10
          omega
        simp only [List.foldl_cons, List.foldl_nil, List.length_append,
          List.length_singleton, digitVal_digitChar hmod]
        calc (a * 10 ^ ds.length + n / 10) * 10 + n % 10
            = a * (10 ^ ds.length * 10) + (n / 10 * 10 + n % 10) := by ring
          _ = a * 10 ^ (ds.length + 1) + n := by rw [hdm, pow_succ]

theorem printNat_spec (n : Nat) :
    ∃ ds, printNat n = ds ∧ ds ≠ [] ∧ (∀ c ∈ ds, c.isDigit = true) ∧
      parseNatDigits ds = n := by
  obtain ⟨ds, heq, hne, hdig, hfold⟩ := printNatAux_spec (n + 1) n [] (by omega)
  refine ⟨ds, by rw [printNat, heq, List.append_nil], hne, hdig, ?_⟩
  have := hfold 0
  simpa [parseNatDigits] using this

/-! ### Round-trip lemmas: whitespace skipping -/

theorem skipWs_cons_of_not_ws {c : Char} (l : List Char) (h : isJsonWs c = false) :
    skipWs (c :: l) = c :: l := by
  simp [skipWs, List.dropWhile_cons, h]

theorem skipWs_space (l : List Char) : skipWs (' ' :: l) = skipWs l := by
  rw [skipWs, List.dropWhile_cons, if_pos (show isJsonWs ' ' = true from by decide)]
  rfl

/-- Every serialized value starts with a non-whitespace character, so the
decoder's whitespace skipping does not move past it. -/
theorem skipWs_printVal (v : Json) (rest : List Char) :
    skipWs (printVal v ++ rest) = printVal v ++ rest := by
  cases v with
  | null =>
    simp only [printVal, List.cons_append]
    exact skipWs_cons_of_not_ws _ (by decide)
  | bool b =>
    cases b <;>
      (simp only [printVal, List.cons_append]
       exact skipWs_cons_of_not_ws _ (by decide))
  | num n =>
    simp only [printVal, printInt]
    by_cases hn : n < 0
    · rw [if_pos hn]
      simp only [List.cons_append]
      exact skipWs_cons_of_not_ws _ (by decide)
    · rw [if_neg hn]
      obtain ⟨ds, heq, hne, hdig, -⟩ := printNat_spec n.toNat
      rw [heq]
      cases ds with
      | nil => exact absurd rfl hne
      | cons c t =>
        simp only [List.cons_append]
        exact skipWs_cons_of_not_ws _
          (isJsonWs_eq_false_of_isDigit (hdig c (List.mem_cons_self c t)))
  | str s =>
    simp only [printVal, List.cons_append]
    exact skipWs_cons_of_not_ws _ (by decide)
  | arr items =>
    cases items <;>
      (simp only [printVal, List.cons_append]
       exact skipWs_cons_of_not_ws _ (by decide))
  | obj entries =>
    cases entries <;>
      (simp only [printVal, List.cons_append]
       exact skipWs_cons_of_not_ws _ (by decide))

/-! ### Round-trip lemmas: strings -/

theorem parseStringBodyAux_escape (s rest : List Char) :
    parseStringBodyAux false (escapeStr s ++ ('"' :: rest)) = some (s, rest) := by
  induction s with
  | nil => rfl
  | cons c cs ih =>
    have hstep : escapeStr (c :: cs) = escapeChar c ++ escapeStr cs := rfl
    rw [hstep, List.append_assoc]
    by_cases hq : c = '"'
    · subst hq
      change (match parseStringBodyAux false (escapeStr cs ++ ('"' :: rest)) with
        | none => none
        | some (s, r) => some ('"' :: s, r)) = _
      rw [ih]
    · by_cases hb : c = '\\'
      · subst hb
        change (match parseStringBodyAux false (escapeStr cs ++ ('"' :: rest)) with
          | none => none
          | some (s, r) => some ('\\' :: s, r)) = _
        rw [ih]
      · rw [show escapeChar c = [c] from by simp [escapeChar, hq, hb]]
        rw [List.singleton_append]
        simp only [parseStringBodyAux]
        rw [if_neg hq, if_neg hb, ih]

theorem parseStringBody_escape (s rest : List Char) :
    parseStringBody (escapeStr s ++ ('"' :: rest)) = some (s, rest) :=
  parseStringBodyAux_escape s rest

/-! ### Round-trip lemmas: numbers -/

/-- No character of `rest` may extend a token that ends at its boundary:
the head is not a digit. -/
def headSafe (rest : List Char) : Prop :=
  ∀ c, rest.head? = some c → c.isDigit = false

theorem takeWhile_digit_append (ds rest : List Char)
    (hds : ∀ c ∈ ds, c.isDigit = true) (hrest : headSafe rest) :
    (ds ++ rest).takeWhile Char.isDigit = ds
    ∧ (ds ++ rest).dropWhile Char.isDigit = rest := by
  induction ds with
  | nil =>
    cases rest with
    | nil => exact ⟨rfl, rfl⟩
    | cons c t =>
      have hc : c.isDigit = false := hrest c rfl
      simp [List.takeWhile_cons, List.dropWhile_cons, hc]
  | cons d dt ih =>
    have hd : d.isDigit = true := hds d (List.mem_cons_self d dt)
    obtain ⟨h1, h2⟩ := ih (fun c hc => hds c (List.mem_cons_of_mem d hc))
    simp [List.takeWhile_cons, List.dropWhile_cons, hd, h1, h2]

theorem parseNumber_printInt (n : Int) (rest : List Char) (hrest : headSafe rest) :
    parseNumber (printInt n ++ rest) = some (.num n, rest) := by
  rw [printInt]
  by_cases hn : n < 0
  · rw [if_pos hn]
    obtain ⟨ds, heq, hne, hdig, hval⟩ := printNat_spec (-n).toNat
    obtain ⟨ht, hd⟩ := takeWhile_digit_append ds rest hdig hrest
    rw [heq]
    simp only [parseNumber, List.cons_append, List.head?_cons, List.tail_cons, if_true]
    rw [ht, hd, if_neg hne, hval]
    have hcast : (((-n).toNat : Nat) : Int) = -n := Int.toNat_of_nonneg (by omega)
    rw [hcast, neg_neg]
  · rw [if_neg hn]
    obtain ⟨ds, heq, hne, hdig, hval⟩ := printNat_spec n.toNat
    obtain ⟨ht, hd⟩ := takeWhile_digit_append ds rest hdig hrest
    rw [heq]
    have hhead : ¬ ((ds ++ rest).head? = some '-') := by
      cases ds with
      | nil => exact absurd rfl hne
      | cons d dt =>
        rw [List.cons_append, List.head?_cons]
        intro hcontra
        injection hcontra with hc
        have hdd := hdig d (List.mem_cons_self d dt)
        rw [hc] at hdd
        exact absurd hdd (by decide)
    simp only [parseNumber]
    rw [if_neg hhead, ht, hd, if_neg hne, if_neg hhead, hval]
    rw [show ((n.toNat : Nat) : Int) = n from Int.toNat_of_nonneg (by omega)]

/-! ### Round-trip lemmas: structure -/

theorem one_le_sizeOf_json (v : Json) : 1 ≤ sizeOf v := by
  cases v <;> simp <;> omega

theorem dictInsert_not_mem (k : List Char) (v : Json) (acc : List (List Char × Json))
    (h : k ∉ acc.map Prod.fst) : dictInsert k v acc = acc ++ [(k, v)] := by
  rw [dictInsert, if_neg]
  simp only [List.any_eq_true, decide_eq_true_eq]
  rintro ⟨e, he, hek⟩
  exact h (List.mem_map.mpr ⟨e, he, hek⟩)

theorem dictize_aux (pairs : List (List Char × Json)) :
    ∀ acc : List (List Char × Json),
      (acc.map Prod.fst ++ pairs.map Prod.fst).Nodup →
      pairs.foldl (fun acc e => dictInsert e.1 e.2 acc) acc = acc ++ pairs := by
  induction pairs with
  | nil => intro acc _; simp
  | cons p ps ih =>
    intro acc h
    rw [List.foldl_cons]
    have hdisj := (List.nodup_append.mp h).2.2
    have hk : p.1 ∉ acc.map Prod.fst := fun hmem =>
      hdisj hmem (List.mem_map.mpr ⟨p, List.mem_cons_self p ps, rfl⟩)
    rw [dictInsert_not_mem p.1 p.2 acc hk]
    have h' : ((acc ++ [p]).map Prod.fst ++ ps.map Prod.fst).Nodup := by
      simp only [List.map_append, List.map_cons, List.map_nil] at h ⊢
      rw [List.append_assoc, List.singleton_append]
      simpa using h
    rw [ih (acc ++ [p]) h', List.append_assoc, List.singleton_append]

theorem dictize_nodup (es : List (List Char × Json)) (h : (es.map Prod.fst).Nodup) :
    dictize es = es := by
  have := dictize_aux es [] (by simpa using h)
  simpa [dictize] using this

/-- Serialized values never begin with a closing bracket (or any
whitespace; digits and `-` open numbers, the other openers are fixed). -/
theorem printVal_head_ne (v : Json) (X : List Char) (c0 : Char)
    (hc0 : c0.isDigit = false) (hq : c0 ≠ '"') (hb : c0 ≠ '\x7b') (ha : c0 ≠ '[')
    (hn : c0 ≠ 'n') (ht : c0 ≠ 't') (hf : c0 ≠ 'f') (hm : c0 ≠ '-') :
    ¬ ((printVal v ++ X).head? = some c0) := by
  cases v with
  | null =>
    simp only [printVal, List.cons_append, List.head?_cons]
    intro h; injection h with h; exact hn h.symm
  | bool b =>
    cases b with
    | true =>
      simp only [printVal, List.cons_append, List.head?_cons]
      intro h; injection h with h; exact ht h.symm
    | false =>
      simp only [printVal, List.cons_append, List.head?_cons]
      intro h; injection h with h; exact hf h.symm
  | num n =>
    simp only [printVal, printInt]
    by_cases hneg : n < 0
    · rw [if_pos hneg]
      simp only [List.cons_append, List.head?_cons]
      intro h; injection h with h; exact hm h.symm
    · rw [if_neg hneg]
      obtain ⟨ds, heq, hne, hdig, -⟩ := printNat_spec n.toNat
      rw [heq]
      cases ds with
      | nil => exact absurd rfl hne
      | cons d dt =>
        simp only [List.cons_append, List.head?_cons]
        intro h; injection h with h
        rw [← h] at hc0
        rw [hdig d (List.mem_cons_self d dt)] at hc0
        exact absurd hc0 (by decide)
  | str s =>
    simp only [printVal, List.cons_append, List.head?_cons]
    intro h; injection h with h; exact hq h.symm
  | arr items =>
    cases items <;> simp only [printVal, List.cons_append, List.head?_cons] <;>
      (intro h; injection h with h; exact ha h.symm)
  | obj entries =>
    cases entries <;> simp only [printVal, List.cons_append, List.head?_cons] <;>
      (intro h; injection h with h; exact hb h.symm)

theorem skipWs_printElems (v : Json) (vs : List Json) (X : List Char) :
    skipWs (printElems v vs ++ X) = printElems v vs ++ X := by
  cases vs with
  | nil => simp only [printElems]; exact skipWs_printVal v X
  | cons w ws =>
    simp only [printElems]
    rw [List.append_assoc]
    exact skipWs_printVal v _

theorem printElems_head_ne (v : Json) (vs : List Json) (X : List Char) (c0 : Char)
    (hc0 : c0.isDigit = false) (hq : c0 ≠ '"') (hb : c0 ≠ '\x7b') (ha : c0 ≠ '[')
    (hn : c0 ≠ 'n') (ht : c0 ≠ 't') (hf : c0 ≠ 'f') (hm : c0 ≠ '-') :
    ¬ ((printElems v vs ++ X).head? = some c0) := by
  cases vs with
  | nil =>
    simp only [printElems]
    exact printVal_head_ne v X c0 hc0 hq hb ha hn ht hf hm
  | cons w ws =>
    simp only [printElems]
    rw [List.append_assoc]
    exact printVal_head_ne v _ c0 hc0 hq hb ha hn ht hf hm

/-- At the start of a number, `parseVal` dispatches to `parseNumber`. -/
theorem parseVal_succ_num (fuel : Nat) (n : Int) (rest : List Char) :
    parseVal (fuel + 1) (printInt n ++ rest) = parseNumber (printInt n ++ rest) := by
  rw [printInt]
  by_cases hn : n < 0
  · rw [if_pos hn, List.cons_append]
    rfl
  · rw [if_neg hn]
    obtain ⟨ds, heq, hne, hdig, -⟩ := printNat_spec n.toNat
    rw [heq]
    cases ds with
    | nil => exact absurd rfl hne
    | cons d dt =>
      have hdd : d.isDigit = true := hdig d (List.mem_cons_self d dt)
      have hlit : ∀ x : Char, x.isDigit = false → ¬ d = x := fun x hx hdx => by
        rw [hdx] at hdd; rw [hdd] at hx; exact absurd hx (by simp)
      rw [List.cons_append]
      simp only [parseVal]
      rw [if_neg (hlit '"' (by decide)), if_neg (hlit '\x7b' (by decide)),
        if_neg (hlit '[' (by decide)), if_neg (hlit 'n' (by decide)),
        if_neg (hlit 't' (by decide)), if_neg (hlit 'f' (by decide)),
        if_pos (by simp [hdd])]

theorem headSafe_cons {c0 : Char} (h : c0.isDigit = false) (l : List Char) :
    headSafe (c0 :: l) := by
  intro c hc
  rw [List.head?_cons] at hc
  injection hc with hc
  rw [← hc]
  exact h

theorem one_le_sizeOf_entry (e : List Char × Json) : 1 ≤ sizeOf e := by
  cases e
  simp
  omega

/-- Parsing inverts serialization, by simultaneous fuel induction over
values, element lists and member lists. -/
theorem parse_print_aux : ∀ fuel : Nat,
    (∀ v rest, WF v → sizeV v ≤ fuel → headSafe rest →
      parseVal fuel (printVal v ++ rest) = some (v, rest))
    ∧ (∀ v vs rest, WF (.arr (v :: vs)) → sizeL v vs ≤ fuel →
      parseElems fuel (printElems v vs ++ (']' :: rest)) = some (v :: vs, rest))
    ∧ (∀ e es rest, WF (.obj (e :: es)) → sizeM e es ≤ fuel →
      parseMembers fuel (printMembers e es ++ ('\x7d' :: rest)) = some (e :: es, rest)) := by
  intro fuel
  induction fuel with
  | zero =>
    refine ⟨fun v rest _ hsz _ => ?_, fun v vs rest _ hsz => ?_,
      fun e es rest _ hsz => ?_⟩
    · have := one_le_sizeV v
      omega
    · have := one_le_sizeL v vs
      omega
    · have := one_le_sizeM e es
      omega
  | succ fuel ih =>
    obtain ⟨ihV, ihE, ihM⟩ := ih
    refine ⟨fun v rest hwf hsz hrest => ?_, fun v vs rest hwf hsz => ?_,
      fun e es rest hwf hsz => ?_⟩
    · -- one value
      cases v with
      | null =>
        simp only [printVal, List.cons_append]
        rfl
      | bool b =>
        cases b <;> (simp only [printVal, List.cons_append]; rfl)
      | num n =>
        simp only [printVal]
        rw [parseVal_succ_num, parseNumber_printInt n rest hrest]
      | str s =>
        simp only [printVal, List.cons_append, List.append_assoc, List.singleton_append]
        change (match parseStringBody (escapeStr s ++ ('"' :: rest)) with
          | none => none
          | some (cs, r2) => some (Json.str cs, r2)) = some (Json.str s, rest)
        rw [parseStringBody_escape]
      | arr items =>
        cases items with
        | nil =>
          simp only [printVal, List.cons_append]
          rfl
        | cons v vs =>
          simp only [printVal, List.cons_append, List.append_assoc, List.singleton_append]
          have hskip := skipWs_printElems v vs (']' :: rest)
          have hhead := printElems_head_ne v vs (']' :: rest) ']' (by decide) (by decide)
            (by decide) (by decide) (by decide) (by decide) (by decide) (by decide)
          change (let r1 := skipWs (printElems v vs ++ (']' :: rest));
            if r1.head? = some ']' then some (Json.arr [], r1.tail)
            else match parseElems fuel r1 with
              | none => none
              | some (items, r2) => some (Json.arr items, r2)) = _
          simp only [hskip]
          rw [if_neg hhead]
          have hsz' : sizeL v vs ≤ fuel := by
            simp [sizeV] at hsz
            omega
          rw [ihE v vs rest hwf hsz']
      | obj entries =>
        cases entries with
        | nil =>
          simp only [printVal, List.cons_append]
          rfl
        | cons e es =>
          simp only [printVal, List.cons_append, List.append_assoc, List.singleton_append]
          have hkeys : (((e :: es).map Prod.fst)).Nodup := by
            cases hwf with | obj _ hk _ => exact hk
          have hskip : skipWs (printMembers e es ++ ('\x7d' :: rest)) =
              printMembers e es ++ ('\x7d' :: rest) := by
            obtain ⟨k, v⟩ := e
            cases es <;>
              (simp only [printMembers, List.cons_append]
               exact skipWs_cons_of_not_ws _ (by decide))
          have hhead : ¬ ((printMembers e es ++ ('\x7d' :: rest)).head? = some '\x7d') := by
            obtain ⟨k, v⟩ := e
            cases es <;>
              (simp only [printMembers, List.cons_append, List.head?_cons]
               intro h
               injection h with h
               exact absurd h (by decide))
          change (let r1 := skipWs (printMembers e es ++ ('\x7d' :: rest));
            if r1.head? = some '\x7d' then some (Json.obj [], r1.tail)
            else match parseMembers fuel r1 with
              | none => none
              | some (pairs, r2) => some (Json.obj (dictize pairs), r2)) = _
          simp only [hskip]
          rw [if_neg hhead]
          have hsz' : sizeM e es ≤ fuel := by
            simp [sizeV] at hsz
            omega
          rw [ihM e es rest hwf hsz']
          change some (Json.obj (dictize (e :: es)), rest) = _
          rw [dictize_nodup _ hkeys]
    · -- element lists
      have hwfv : WF v := by
        cases hwf with | arr _ h => exact h v (List.mem_cons_self _ _)
      cases vs with
      | nil =>
        simp only [printElems]
        have hsz' : sizeV v ≤ fuel := by
          simp [sizeL] at hsz
          omega
        have h1 := ihV v (']' :: rest) hwfv hsz' (headSafe_cons (by decide) rest)
        simp only [parseElems]
        rw [h1]
        rfl
      | cons w ws =>
        simp only [printElems, List.append_assoc, List.cons_append]
        have hsz1 : sizeV v ≤ fuel := by
          have := one_le_sizeL w ws
          simp [sizeL] at hsz
          omega
        have h1 := ihV v (',' :: ' ' :: (printElems w ws ++ (']' :: rest))) hwfv hsz1
          (headSafe_cons (by decide) _)
        simp only [parseElems]
        rw [h1]
        change (match parseElems fuel
            (skipWs (' ' :: (printElems w ws ++ (']' :: rest)))) with
          | none => none
          | some (vs', r3) => some (v :: vs', r3)) = _
        rw [skipWs_space, skipWs_printElems]
        have hwf' : WF (.arr (w :: ws)) := by
          cases hwf with
          | arr _ h => exact WF.arr _ (fun x hx => h x (List.mem_cons_of_mem _ hx))
        have hsz2 : sizeL w ws ≤ fuel := by
          simp [sizeL] at hsz
          omega
        rw [ihE w ws rest hwf' hsz2]
    · -- member lists
      obtain ⟨k, v⟩ := e
      have hwfv : WF v := by
        cases hwf with | obj _ _ h => exact h (k, v) (List.mem_cons_self _ _)
      have hszv : sizeV v ≤ fuel := by
        cases es <;> (simp [sizeM] at hsz; omega)
      cases es with
      | nil =>
        simp only [printMembers, List.cons_append, List.append_assoc]
        have h1 := ihV v ('\x7d' :: rest) hwfv hszv (headSafe_cons (by decide) rest)
        simp only [parseMembers]
        rw [parseStringBody_escape]
        change (match parseVal fuel
            (skipWs (' ' :: (printVal v ++ ('\x7d' :: rest)))) with
          | none => none
          | some (v', r3) =>
            match skipWs r3 with
            | ',' :: r4 =>
              (match parseMembers fuel (skipWs r4) with
               | none => none
               | some (es', r5) => some ((k, v') :: es', r5))
            | '\x7d' :: r4 => some ([(k, v')], r4)
            | _ => none) = _
        rw [skipWs_space, skipWs_printVal, h1]
        rfl
      | cons f fs =>
        simp only [printMembers, List.cons_append, List.append_assoc]
        have h1 := ihV v (',' :: ' ' :: (printMembers f fs ++ ('\x7d' :: rest))) hwfv hszv
          (headSafe_cons (by decide) _)
        simp only [parseMembers]
        rw [parseStringBody_escape]
        change (match parseVal fuel
            (skipWs (' ' :: (printVal v ++
              (',' :: ' ' :: (printMembers f fs ++ ('\x7d' :: rest)))))) with
          | none => none
          | some (v', r3) =>
            match skipWs r3 with
            | ',' :: r4 =>
              (match parseMembers fuel (skipWs r4) with
               | none => none
               | some (es', r5) => some ((k, v') :: es', r5))
            | '\x7d' :: r4 => some ([(k, v')], r4)
            | _ => none) = _
        rw [skipWs_space, skipWs_printVal, h1]
        have hskipM : skipWs (printMembers f fs ++ ('\x7d' :: rest)) =
            printMembers f fs ++ ('\x7d' :: rest) := by
          obtain ⟨k2, v2⟩ := f
          cases fs <;>
            (simp only [printMembers, List.cons_append]
             exact skipWs_cons_of_not_ws _ (by decide))
        change (match parseMembers fuel
            (skipWs (' ' :: (printMembers f fs ++ ('\x7d' :: rest)))) with
          | none => none
          | some (es', r5) => some ((k, v) :: es', r5)) = _
        rw [skipWs_space, hskipM]
        have hwf' : WF (.obj (f :: fs)) := by
          cases hwf with
          | obj _ hk h =>
            exact WF.obj _ hk.of_cons (fun x hx => h x (List.mem_cons_of_mem _ hx))
        have hsz2 : sizeM f fs ≤ fuel := by
          simp [sizeM] at hsz
          omega
        rw [ihM f fs rest hwf' hsz2]

/-! ### `loads` after `dumps` -/

theorem one_le_printInt_length (n : Int) : 1 ≤ (printInt n).length := by
  rw [printInt]
  by_cases hn : n < 0
  · rw [if_pos hn]
    simp
  · rw [if_neg hn]
    obtain ⟨ds, heq, hne, -, -⟩ := printNat_spec n.toNat
    rw [heq]
    cases ds with
    | nil => exact absurd rfl hne
    | cons d dt => simp

/-- The nesting fuel a value needs is bounded by its serialized length. -/
theorem sizeV_le_length_aux : ∀ n : Nat,
    (∀ v, sizeOf v ≤ n → sizeV v ≤ (printVal v).length)
    ∧ (∀ v vs, 1 + sizeOf v + sizeOf vs ≤ n →
      sizeL v vs ≤ (printElems v vs).length + 1)
    ∧ (∀ e es, 1 + sizeOf e + sizeOf es ≤ n →
      sizeM e es ≤ (printMembers e es).length + 1) := by
  intro n
  induction n with
  | zero =>
    refine ⟨fun v hsz => ?_, fun v vs hsz => ?_, fun e es hsz => ?_⟩
    · have := one_le_sizeOf_json v
      omega
    · omega
    · omega
  | succ n ih =>
    obtain ⟨ihA, ihB, ihC⟩ := ih
    refine ⟨fun v hsz => ?_, fun v vs hsz => ?_, fun e es hsz => ?_⟩
    · cases v with
      | null => simp [sizeV, printVal]
      | bool b => cases b <;> simp [sizeV, printVal]
      | num m =>
        have := one_le_printInt_length m
        simp only [sizeV, printVal]
        omega
      | str s => simp [sizeV, printVal]
      | arr items =>
        cases items with
        | nil => simp [sizeV, printVal]
        | cons v vs =>
          have hb := ihB v vs (by simp at hsz; omega)
          simp only [sizeV, printVal, List.length_cons, List.length_append]
          simp at hb ⊢
          omega
      | obj entries =>
        cases entries with
        | nil => simp [sizeV, printVal]
        | cons e es =>
          have hc := ihC e es (by simp at hsz; omega)
          simp only [sizeV, printVal, List.length_cons, List.length_append]
          simp at hc ⊢
          omega
    · cases vs with
      | nil =>
        have ha := ihA v (by simp at hsz; omega)
        simp only [sizeL, printElems]
        omega
      | cons w ws =>
        have ha := ihA v (by simp at hsz; omega)
        have hb := ihB w ws (by simp at hsz; omega)
        simp only [sizeL, printElems, List.length_append, List.length_cons]
        omega
    · obtain ⟨k, v⟩ := e
      cases es with
      | nil =>
        have ha := ihA v (by simp at hsz; omega)
        simp only [sizeM, printMembers, List.length_cons, List.length_append]
        omega
      | cons f fs =>
        have ha := ihA v (by simp at hsz; omega)
        have hc := ihC f fs (by simp at hsz; omega)
        simp only [sizeM, printMembers, List.length_cons, List.length_append]
        omega

theorem sizeV_le_length (v : Json) : sizeV v ≤ (printVal v).length :=
  (sizeV_le_length_aux (sizeOf v)).1 v (Nat.le_refl _)

theorem headSafe_nil : headSafe ([] : List Char) := by
  intro c hc
  exact absurd hc (by simp)

/-- `json.loads` inverts `json.dumps` on well-formed values. -/
theorem loads_dumps (v : Json) (hwf : WF v) : loads (dumps v) = some v := by
  have hskip : skipWs (printVal v) = printVal v := by
    have h := skipWs_printVal v []
    rwa [List.append_nil] at h
  have hfuel : sizeV v ≤ (printVal v).length + 1 :=
    Nat.le_trans (sizeV_le_length v) (Nat.le_succ _)
  have h1 := (parse_print_aux ((printVal v).length + 1)).1 v [] hwf hfuel headSafe_nil
  rw [List.append_nil] at h1
  simp only [loads, dumps, hskip, h1]
  rfl

/-! ## Envelope parsing (`src/core/json_io.py`, `src/core/schema.py`)

`EnvelopeParseError` is modelled as the error message string.  A payload
that is neither an `Envelope`, a mapping, text nor bytes raises
"Envelope must be a mapping or JSON text" in the source; such payloads
are outside the `Payload` type, and bytes decode to the same text case. -/

/-- `stripped.find(c)`: index of the first occurrence, if any. -/
def pyFindAux (c : Char) : Nat → List Char → Option Nat
  | _, [] => none
  | i, x :: rest => if x = c then some i else pyFindAux c (i + 1) rest

/-- `str.find` of a single character (`none` models `-1`). -/
def pyFind (c : Char) (s : List Char) : Option Nat := pyFindAux c 0 s

/-- `str.rfind` of a single character (`none` models `-1`). -/
def pyRfind (c : Char) (s : List Char) : Option Nat :=
  match pyFind c s.reverse with
  | none => none
  | some i => some (s.length - 1 - i)

/-- `_load_json_payload`: strict parse, then the first-brace/last-brace
slice, with the error messages of the source. -/
def loadJsonPayload (text : List Char) : Except String Json :=
  let stripped := pyStrip text
  if stripped = [] then .error "Empty response"
  else
    match loads stripped with
    | some v => .ok v
    | none =>
      match pyFind '\x7b' stripped, pyRfind '\x7d' stripped with
      | some start, some stop =>
        if stop ≤ start then .error "Could not locate a JSON object"
        else
          match loads ((stripped.drop start).take (stop + 1 - start)) with
          | some v => .ok v
          | none => .error "Invalid JSON object"
      | _, _ => .error "Could not locate a JSON object"

/-- The field keys of the unified envelope. -/
def keyPassed : List Char := "passed".toList

/-- Key of the optional diagnostics mapping. -/
def keyChecks : List Char := "checks".toList

/-- Key of the required task payload. -/
def keyAnswer : List Char := "answer".toList

/-- Key of the optional free-form message. -/
def keyNotes : List Char := "notes".toList

/-- The only keys the schema admits (`extra = "forbid"`). -/
def allowedKeys : List (List Char) := [keyPassed, keyChecks, keyAnswer, keyNotes]

/-- Python `dict` lookup on an ordered association list with unique keys. -/
def lookupKey (k : List Char) : List (List Char × Json) → Option Json
  | [] => none
  | (k2, v) :: rest => if k2 = k then some v else lookupKey k rest

/-- Schema test for the optional `checks` mapping. -/
def checksOk : Option Json → Bool
  | none => true
  | some (.obj _) => true
  | _ => false

/-- Schema test for the optional `notes` string. -/
def notesOk : Option Json → Bool
  | none => true
  | some .null => true
  | some (.str _) => true
  | _ => false

/-- The pydantic `Envelope` model. -/
structure Envelope where
  passed : Bool
  checks : List (List Char × Json)
  answer : Json
  notes : Option (List Char)

/-- `Envelope.model_dump()`: all fields in declaration order; an absent
`notes` is emitted as `null`. -/
def Envelope.model_dump (e : Envelope) : Json :=
  .obj [(keyPassed, .bool e.passed), (keyChecks, .obj e.checks),
    (keyAnswer, e.answer),
    (keyNotes, match e.notes with | none => .null | some s => .str s)]

/-- `jsonschema.validate` against `ENVELOPE_JSON_SCHEMA` followed by
`Envelope.model_validate(...).model_dump()`: required boolean `passed`,
required `answer`, optional object `checks`, optional string-or-null
`notes`, no other keys; on success the normalized object with `checks`
defaulting to the empty mapping and `notes` defaulting to `null`.  (The
model fixes one checking order; `jsonschema` picks its own best-match
error when several rules fail at once.) -/
def validateEnvelope (data : List (List Char × Json)) : Except String Json :=
  if ¬ data.all (fun e => allowedKeys.contains e.1) = true then
    .error "Envelope does not match schema: additional properties are not allowed"
  else
    match lookupKey keyPassed data with
    | none => .error "Envelope does not match schema: passed is a required property"
    | some pv =>
      match pv with
      | .bool b =>
        match lookupKey keyAnswer data with
        | none => .error "Envelope does not match schema: answer is a required property"
        | some av =>
          if ¬ checksOk (lookupKey keyChecks data) = true then
            .error "Envelope does not match schema: checks is not of type object"
          else if ¬ notesOk (lookupKey keyNotes data) = true then
            .error "Envelope does not match schema: notes is not of type string or null"
          else
            .ok (.obj [(keyPassed, .bool b),
              (keyChecks, (lookupKey keyChecks data).getD (.obj [])),
              (keyAnswer, av),
              (keyNotes, (lookupKey keyNotes data).getD .null)])
      | _ => .error "Envelope does not match schema: passed is not of type boolean"

/-- The three payload shapes `parse_envelope` accepts. -/
inductive Payload where
  | fromEnvelope (e : Envelope)
  | fromMapping (entries : List (List Char × Json))
  | fromText (s : List Char)

/-- `parse_envelope`: an `Envelope` instance is dumped directly, a
mapping is validated, text is JSON-loaded (with prose recovery), checked
to be an object, then validated. -/
def parse_envelope : Payload → Except String Json
  | .fromEnvelope e => .ok e.model_dump
  | .fromMapping entries => validateEnvelope entries
  | .fromText s =>
    match loadJsonPayload s with
    | .error msg => .error msg
    | .ok v =>
      match v with
      | .obj entries => validateEnvelope entries
      | _ => .error "Envelope root must be an object"

/-! ## C4 -/

theorem pyFindAux_append (c : Char) (l1 l2 : List Char) (hc : c ∉ l1)
    (hhead : l2.head? = some c) :
    ∀ i, pyFindAux c i (l1 ++ l2) = some (i + l1.length) := by
  induction l1 with
  | nil =>
    intro i
    cases l2 with
    | nil => simp at hhead
    | cons x r =>
      rw [List.head?_cons] at hhead
      injection hhead with hx
      simp [pyFindAux, hx]
  | cons x r ih =>
    intro i
    have hx : ¬ x = c := fun h => hc (by rw [h]; exact List.mem_cons_self _ _)
    rw [List.cons_append]
    simp only [pyFindAux]
    rw [if_neg hx, ih (fun h => hc (List.mem_cons_of_mem _ h)) (i + 1)]
    congr 1
    simp only [List.length_cons]
    omega

theorem pyFind_append (c : Char) (l1 l2 : List Char) (hc : c ∉ l1)
    (hhead : l2.head? = some c) : pyFind c (l1 ++ l2) = some l1.length := by
  have := pyFindAux_append c l1 l2 hc hhead 0
  simpa [pyFind] using this

theorem pyStrip_eq_self (l : List Char)
    (hh : ∀ c, l.head? = some c → isPyWs c = false)
    (hl : ∀ c, l.getLast? = some c → isPyWs c = false) : pyStrip l = l := by
  unfold pyStrip
  have h1 : l.dropWhile isPyWs = l := by
    cases l with
    | nil => rfl
    | cons c t => simp [List.dropWhile_cons, hh c rfl]
  rw [h1]
  have h2 : l.reverse.dropWhile isPyWs = l.reverse := by
    cases hr : l.reverse with
    | nil => rfl
    | cons c t =>
      have hc : l.getLast? = some c := by
        rw [← List.head?_reverse, hr, List.head?_cons]
      simp [List.dropWhile_cons, hl c hc]
  rw [h2, List.reverse_reverse]

/-- C4 amended: text around a single well-formed JSON object parses to
the bare object provided the strict whole-text parse fails, the prose
before the object contains no opening brace and the prose after it
contains no closing brace; and a recovered non-object payload makes
`parse_envelope` fail naming the cause.  (The counterexample shows the
brace conditions are necessary.) -/
theorem loadJsonPayload_embedded_object (text p1 obj p2 : List Char) (v : Json)
    (htext : pyStrip text = p1 ++ (obj ++ p2))
    (hstrict : loads (p1 ++ (obj ++ p2)) = none)
    (hobj : loads obj = some v)
    (hp1 : '\x7b' ∉ p1) (hp2 : '\x7d' ∉ p2)
    (hhead : obj.head? = some '\x7b') (hlast : obj.getLast? = some '\x7d') :
    loadJsonPayload text = .ok v
    ∧ (∀ s w, loadJsonPayload s = .ok w → (∀ entries, w ≠ .obj entries) →
        parse_envelope (.fromText s) = .error "Envelope root must be an object") := by
  constructor
  · have hobjne : obj ≠ [] := by
      intro h
      rw [h] at hhead
      exact absurd hhead (by simp)
    have hlen2 : 2 ≤ obj.length := by
      cases obj with
      | nil => simp at hhead
      | cons a t =>
        cases t with
        | nil =>
          rw [List.head?_cons] at hhead
          injection hhead with h1
          have hl1 : ([a] : List Char).getLast? = some a := rfl
          rw [hl1] at hlast
          injection hlast with h2
          rw [h1] at h2
          exact absurd h2 (by decide)
        | cons b u => simp [List.length_cons]
    have hne : p1 ++ (obj ++ p2) ≠ [] := by
      simp [hobjne]
    have hfind : pyFind '\x7b' (p1 ++ (obj ++ p2)) = some p1.length := by
      refine pyFind_append _ _ _ hp1 ?_
      cases obj with
      | nil => exact absurd rfl hobjne
      | cons a t =>
        rw [List.head?_cons] at hhead
        rw [List.cons_append, List.head?_cons]
        exact hhead
    have hrfind : pyRfind '\x7d' (p1 ++ (obj ++ p2)) =
        some (p1.length + obj.length - 1) := by
      have hrev : (p1 ++ (obj ++ p2)).reverse =
          p2.reverse ++ (obj.reverse ++ p1.reverse) := by
        simp [List.reverse_append]
      have hrevne : obj.reverse ≠ [] := by
        simpa using hobjne
      have hheadrev : (obj.reverse ++ p1.reverse).head? = some '\x7d' := by
        cases hr : obj.reverse with
        | nil => exact absurd hr hrevne
        | cons a t =>
          have : obj.getLast? = some a := by
            rw [← List.head?_reverse, hr, List.head?_cons]
          rw [this] at hlast
          injection hlast with h2
          rw [List.cons_append, List.head?_cons, h2]
      have hfr : pyFind '\x7d' ((p1 ++ (obj ++ p2)).reverse) = some p2.length := by
        rw [hrev]
        have := pyFind_append '\x7d' p2.reverse (obj.reverse ++ p1.reverse)
          (by simpa using hp2) hheadrev
        simpa using this
      rw [pyRfind, hfr]
      simp only [List.length_append]
      congr 1
      omega
    simp only [loadJsonPayload, htext]
    rw [if_neg hne, hstrict, hfind, hrfind]
    change (if p1.length + obj.length - 1 ≤ p1.length then
        (Except.error "Could not locate a JSON object" : Except String Json)
      else
        match loads (List.take (p1.length + obj.length - 1 + 1 - p1.length)
            (List.drop p1.length (p1 ++ (obj ++ p2)))) with
        | some v => Except.ok v
        | none => Except.error "Invalid JSON object") = Except.ok v
    rw [if_neg (by omega : ¬ (p1.length + obj.length - 1 ≤ p1.length))]
    rw [List.drop_left p1 (obj ++ p2)]
    rw [show p1.length + obj.length - 1 + 1 - p1.length = obj.length from by omega]
    rw [List.take_left obj p2, hobj]
  · intro s w hw hnobj
    simp only [parse_envelope]
    rw [hw]
    cases w with
    | obj entries => exact absurd rfl (hnobj entries)
    | _ => rfl

/-- C4 counterexample: prose whose trailing text contains a stray
closing brace defeats the first-brace/last-brace recovery even though
the text contains exactly one well-formed JSON object; the bare object
itself parses fine. -/
theorem loadJsonPayload_prose_counterexample :
    loadJsonPayload ("ok \x7b\"passed\": true\x7d :-\x7d".toList) =
      .error "Invalid JSON object"
    ∧ loads ("\x7b\"passed\": true\x7d".toList) =
        some (.obj [(keyPassed, .bool true)])
    ∧ "ok \x7b\"passed\": true\x7d :-\x7d".toList =
        "ok ".toList ++ ("\x7b\"passed\": true\x7d".toList ++ " :-\x7d".toList) :=
  ⟨by rfl, by rfl, by rfl⟩

theorem loadJsonPayload_embedded_object_witness :
    loadJsonPayload ("see \x7b\"a\": 1\x7d here".toList) =
      .ok (.obj [("a".toList, .num 1)]) :=
  (loadJsonPayload_embedded_object ("see \x7b\"a\": 1\x7d here".toList)
    ("see ".toList) ("\x7b\"a\": 1\x7d".toList) (" here".toList)
    (.obj [("a".toList, .num 1)])
    (by rfl) (by rfl) (by rfl) (by decide) (by decide) (by rfl) (by rfl)).1

/-! ## C5 -/

/-- C5 counterexample: `model_dump()` keeps the defaulted `notes` field
with value `null`; the normalized output's `notes` key is present, not
absent. -/
theorem parse_envelope_notes_not_absent :
    parse_envelope (.fromMapping [(keyPassed, .bool true), (keyAnswer, .num 1)]) =
      .ok (.obj [(keyPassed, .bool true), (keyChecks, .obj []),
        (keyAnswer, .num 1), (keyNotes, .null)])
    ∧ lookupKey keyNotes [(keyPassed, .bool true), (keyChecks, .obj []),
        (keyAnswer, .num 1), (keyNotes, .null)] = some .null :=
  ⟨by rfl, by rfl⟩

/-- C5 amended: a mapping validates exactly when it has a boolean
`passed`, an `answer` of any shape, only the four schema keys, an object
`checks` when present and a string-or-null `notes` when present; success
returns the normalized object with `checks` defaulting to the empty
mapping and `notes` defaulting to `null` (present, not absent); each
failure carries a message naming the offending rule. -/
theorem parse_envelope_schema (data : List (List Char × Json)) :
    (∀ out, parse_envelope (.fromMapping data) = .ok out →
      ∃ b av, lookupKey keyPassed data = some (.bool b)
        ∧ lookupKey keyAnswer data = some av
        ∧ data.all (fun e => allowedKeys.contains e.1) = true
        ∧ checksOk (lookupKey keyChecks data) = true
        ∧ notesOk (lookupKey keyNotes data) = true
        ∧ out = .obj [(keyPassed, .bool b),
            (keyChecks, (lookupKey keyChecks data).getD (.obj [])),
            (keyAnswer, av),
            (keyNotes, (lookupKey keyNotes data).getD .null)])
    ∧ (∀ b av, lookupKey keyPassed data = some (.bool b) →
        lookupKey keyAnswer data = some av →
        data.all (fun e => allowedKeys.contains e.1) = true →
        checksOk (lookupKey keyChecks data) = true →
        notesOk (lookupKey keyNotes data) = true →
        parse_envelope (.fromMapping data) = .ok (.obj [(keyPassed, .bool b),
          (keyChecks, (lookupKey keyChecks data).getD (.obj [])),
          (keyAnswer, av),
          (keyNotes, (lookupKey keyNotes data).getD .null)]))
    ∧ (∀ msg, parse_envelope (.fromMapping data) = .error msg →
        msg ∈ ["Envelope does not match schema: additional properties are not allowed",
          "Envelope does not match schema: passed is a required property",
          "Envelope does not match schema: passed is not of type boolean",
          "Envelope does not match schema: answer is a required property",
          "Envelope does not match schema: checks is not of type object",
          "Envelope does not match schema: notes is not of type string or null"]) := by
  refine ⟨?_, ?_, ?_⟩
  · intro out h
    simp only [parse_envelope, validateEnvelope] at h
    split at h
    · exact absurd h (by simp)
    · rename_i hall
      rw [not_not] at hall
      split at h
      · exact absurd h (by simp)
      · rename_i pv hpassed
        split at h
        · rename_i b
          split at h
          · exact absurd h (by simp)
          · rename_i av hanswer
            split at h
            · exact absurd h (by simp)
            · rename_i hchecks
              rw [not_not] at hchecks
              split at h
              · exact absurd h (by simp)
              · rename_i hnotes
                rw [not_not] at hnotes
                injection h with h
                exact ⟨b, av, hpassed, hanswer, hall, hchecks, hnotes, h.symm⟩
        · exact absurd h (by simp)
  · intro b av h1 h2 h3 h4 h5
    simp only [parse_envelope, validateEnvelope, h1, h2, h3, h4, h5]
    rfl
  · intro msg h
    simp only [parse_envelope, validateEnvelope] at h
    split at h
    · injection h with h
      simp [← h]
    · split at h
      · injection h with h
        simp [← h]
      · split at h
        · split at h
          · injection h with h
            simp [← h]
          · split at h
            · injection h with h
              simp [← h]
            · split at h
              · injection h with h
                simp [← h]
              · exact absurd h (by simp)
        · injection h with h
          simp [← h]

theorem parse_envelope_schema_witness :
    parse_envelope (.fromMapping [(keyPassed, .bool false), (keyAnswer, .str "x".toList),
      (keyNotes, .str "hi".toList)]) =
      .ok (.obj [(keyPassed, .bool false), (keyChecks, .obj []),
        (keyAnswer, .str "x".toList), (keyNotes, .str "hi".toList)]) :=
  (parse_envelope_schema [(keyPassed, .bool false), (keyAnswer, .str "x".toList),
      (keyNotes, .str "hi".toList)]).2.1 false (.str "x".toList)
    (by rfl) (by rfl) (by rfl) (by rfl) (by rfl)

/-! ## C6 -/

/-- The shape of a normalized envelope object: exactly the four fields in
`model_dump` order, `checks` an object and `notes` a string or `null`. -/
def NormalizedEnvelope (E : Json) : Prop :=
  ∃ b cs a nt,
    E = .obj [(keyPassed, .bool b), (keyChecks, .obj cs), (keyAnswer, a), (keyNotes, nt)]
    ∧ (nt = .null ∨ ∃ s, nt = .str s)

/-- C6: serializing a normalized (well-formed) envelope and parsing it
back returns the same envelope. -/
theorem parse_envelope_roundtrip (E : Json) (hE : NormalizedEnvelope E) (hwf : WF E) :
    parse_envelope (.fromText (dumps E)) = .ok E := by
  obtain ⟨b, cs, a, nt, rfl, hnt⟩ := hE
  have hstrip : pyStrip (dumps (Json.obj [(keyPassed, .bool b), (keyChecks, .obj cs),
      (keyAnswer, a), (keyNotes, nt)])) =
      dumps (Json.obj [(keyPassed, .bool b), (keyChecks, .obj cs),
        (keyAnswer, a), (keyNotes, nt)]) := by
    simp only [dumps, printVal]
    apply pyStrip_eq_self
    · intro c hc
      rw [List.head?_cons] at hc
      injection hc with hc
      rw [← hc]
      decide
    · intro c hc
      rw [show ('\x7b' :: (printMembers (keyPassed, Json.bool b)
            [(keyChecks, Json.obj cs), (keyAnswer, a), (keyNotes, nt)] ++ ['\x7d'])) =
          (('\x7b' :: printMembers (keyPassed, Json.bool b)
            [(keyChecks, Json.obj cs), (keyAnswer, a), (keyNotes, nt)]) ++ ['\x7d'])
          from rfl] at hc
      rw [List.getLast?_concat] at hc
      injection hc with hc
      rw [← hc]
      decide
  have hne : dumps (Json.obj [(keyPassed, .bool b), (keyChecks, .obj cs),
      (keyAnswer, a), (keyNotes, nt)]) ≠ [] := by
    simp only [dumps, printVal]
    simp
  have hload : loadJsonPayload (dumps (Json.obj [(keyPassed, .bool b), (keyChecks, .obj cs),
      (keyAnswer, a), (keyNotes, nt)])) =
      .ok (Json.obj [(keyPassed, .bool b), (keyChecks, .obj cs),
        (keyAnswer, a), (keyNotes, nt)]) := by
    simp only [loadJsonPayload, hstrip]
    rw [if_neg hne, loads_dumps _ hwf]
  simp only [parse_envelope]
  rw [hload]
  rcases hnt with rfl | ⟨s, rfl⟩ <;> rfl

theorem parse_envelope_roundtrip_witness :
    parse_envelope (.fromText (dumps (Json.obj [(keyPassed, .bool true),
      (keyChecks, .obj []), (keyAnswer, .num 7), (keyNotes, .null)]))) =
      .ok (Json.obj [(keyPassed, .bool true), (keyChecks, .obj []),
        (keyAnswer, .num 7), (keyNotes, .null)]) :=
  parse_envelope_roundtrip _ ⟨true, [], .num 7, .null, rfl, Or.inl rfl⟩
    (WF.obj _ (by decide)
      (by
        intro e he
        simp only [List.mem_cons, List.not_mem_nil, or_false] at he
        rcases he with rfl | rfl | rfl | rfl
        · exact WF.bool true
        · exact WF.obj [] (by simp) (by simp)
        · exact WF.num 7
        · exact WF.null))

/-! ## `fs_find_env` grader (`src/tasks/fs_find_env/grade.py`) -/

/-- `_safe_paths`: keep the string items of an iterable value.  A Python
string is itself iterable over one-character strings; non-iterable
values give the empty list. -/
def safePaths : Json → List (List Char)
  | .arr items => items.filterMap (fun v => match v with | .str s => some s | _ => none)
  | .str s => s.map (fun c => [c])
  | .obj entries => entries.map Prod.fst
  | _ => []

/-- The verdict and diagnostics the `fs_find_env` grader computes from
the submitted and expected path lists (floats modelled as rationals). -/
structure FsOutcome where
  precision : ℚ
  /-- the grader's `recall` value (`recall` is a reserved word here) -/
  recallScore : ℚ
  f1 : ℚ
  reward : ℚ
  passed : Bool
deriving Repr

/-- Lines 36-65 of the grader: set-based precision/recall/F1 with the
source's explicit empty-set branches, reward = F1, and the pass verdict
comparing the raw lists. -/
def fsFindEnvScore (submitted_paths expected : List (List Char)) : FsOutcome :=
  let expected_set := expected.toFinset
  let submitted_set := submitted_paths.toFinset
  let true_positive : ℕ := (expected_set ∩ submitted_set).card
  let precision : ℚ :=
    if submitted_set ≠ ∅ then (true_positive : ℚ) / (submitted_set.card : ℚ) else 0
  let recallQ : ℚ :=
    if expected_set ≠ ∅ then (true_positive : ℚ) / (expected_set.card : ℚ) else 0
  let f1 : ℚ :=
    if true_positive = 0 ∧ submitted_set = ∅ ∧ expected_set ≠ ∅ then 0
    else if true_positive = 0 ∧ expected_set = ∅ then 1
    else if precision + recallQ > 0 then
      2 * precision * recallQ / (precision + recallQ)
    else 0
  { precision := precision, recallScore := recallQ, f1 := f1, reward := f1,
    passed := decide (submitted_paths = expected) }

/-- The grader's verdict: parse failures and non-object answers fail
with reward 0, otherwise score the extracted paths. -/
def fsFindEnvGrade (envelope : Payload) (expected : List (List Char)) :
    Bool × ℚ :=
  match parse_envelope envelope with
  | .error _ => (false, 0)
  | .ok parsed =>
    match parsed with
    | .obj entries =>
      match (lookupKey keyAnswer entries).getD (.obj []) with
      | .obj answerEntries =>
        let out := fsFindEnvScore
          (safePaths ((lookupKey ("paths".toList) answerEntries).getD .null)) expected
        (out.passed, out.reward)
      | _ => (false, 0)
    | _ => (false, 0)

theorem fsScore_f1_of_toFinset_eq (s e : List (List Char))
    (h : s.toFinset = e.toFinset) : (fsFindEnvScore s e).f1 = 1 := by
  simp only [fsFindEnvScore, h, Finset.inter_self]
  by_cases he : e.toFinset = ∅
  · simp only [he, Finset.card_empty, ne_eq, not_true_eq_false, if_false]
    simp
  · have hcardne : e.toFinset.card ≠ 0 := by
      intro hc
      exact he (Finset.card_eq_zero.mp hc)
    have hcast : ((e.toFinset.card : ℕ) : ℚ) ≠ 0 := by
      exact_mod_cast hcardne
    rw [if_neg (by simp [he, hcardne] : ¬ (e.toFinset.card = 0 ∧ e.toFinset = ∅
      ∧ e.toFinset ≠ ∅))]
    rw [if_neg (by simp [he, hcardne] : ¬ (e.toFinset.card = 0 ∧ e.toFinset = ∅))]
    rw [if_pos he, div_self hcast]
    rw [if_pos (by norm_num : (0 : ℚ) < 1 + 1)]
    norm_num

theorem fsScore_f1_of_disjoint (s e : List (List Char))
    (hs : s.toFinset ≠ ∅) (he : e.toFinset ≠ ∅)
    (hd : e.toFinset ∩ s.toFinset = ∅) : (fsFindEnvScore s e).f1 = 0 := by
  simp only [fsFindEnvScore]
  rw [hd]
  simp only [Finset.card_empty, Nat.cast_zero, zero_div, ite_self, zero_add, add_zero,
    mul_zero, zero_mul, true_and, eq_self_iff_true]
  rw [if_neg (fun hh => hs hh.1), if_neg he]

/-! ## C8 -/

/-- C8: F1 reward is 1 exactly on set equality, 0 on nonempty disjoint
sets, and the worked scenario (expected `.env` and
`config/.env.production`, submitted `.env`) gives precision 1, recall
1/2, F1 = 2/3 and a failing verdict. -/
theorem fs_find_env_f1_cases :
    (∀ s e : List (List Char), s.toFinset = e.toFinset →
      (fsFindEnvScore s e).reward = 1)
    ∧ (∀ s e : List (List Char), s.toFinset ≠ ∅ → e.toFinset ≠ ∅ →
        e.toFinset ∩ s.toFinset = ∅ → (fsFindEnvScore s e).reward = 0)
    ∧ ((fsFindEnvScore [".env".toList]
        [".env".toList, "config/.env.production".toList]).precision = 1
      ∧ (fsFindEnvScore [".env".toList]
          [".env".toList, "config/.env.production".toList]).recallScore = 1 / 2
      ∧ (fsFindEnvScore [".env".toList]
          [".env".toList, "config/.env.production".toList]).f1 = 2 / 3
      ∧ (fsFindEnvScore [".env".toList]
          [".env".toList, "config/.env.production".toList]).passed = false) := by
  have hs1 : ([".env".toList] : List (List Char)).toFinset ≠ ∅ := by decide
  have he1 : (([".env".toList, "config/.env.production".toList] :
      List (List Char)).toFinset) ≠ ∅ := by decide
  have htp : ((([".env".toList, "config/.env.production".toList] :
      List (List Char)).toFinset) ∩ (([".env".toList] :
      List (List Char)).toFinset)).card = 1 := by decide
  have hcs : (([".env".toList] : List (List Char)).toFinset).card = 1 := by decide
  have hce : (([".env".toList, "config/.env.production".toList] :
      List (List Char)).toFinset).card = 2 := by decide
  refine ⟨fun s e h => fsScore_f1_of_toFinset_eq s e h,
    fun s e hs he hd => fsScore_f1_of_disjoint s e hs he hd,
    ?_, ?_, ?_, ?_⟩
  · simp only [fsFindEnvScore, htp, hcs]
    rw [if_pos hs1]
    norm_num
  · simp only [fsFindEnvScore, htp, hce]
    rw [if_pos he1]
    norm_num
  · simp only [fsFindEnvScore, htp, hcs, hce]
    rw [if_pos hs1, if_pos he1]
    rw [if_neg (by norm_num : ¬ ((1 : ℕ) = 0 ∧ ([".env".toList] :
      List (List Char)).toFinset = ∅ ∧ (([".env".toList, "config/.env.production".toList] :
      List (List Char)).toFinset) ≠ ∅))]
    rw [if_neg (by norm_num : ¬ ((1 : ℕ) = 0 ∧ (([".env".toList,
      "config/.env.production".toList] : List (List Char)).toFinset) = ∅))]
    rw [if_pos (by norm_num : ((0 : ℚ) < (1 : ℕ) / (1 : ℕ) + (1 : ℕ) / (2 : ℕ)))]
    norm_num
  · rfl

theorem fs_find_env_f1_cases_witness :
    (fsFindEnvScore ["a".toList] ["a".toList]).reward = 1
    ∧ (fsFindEnvScore ["a".toList] ["b".toList]).reward = 0 :=
  ⟨(fs_find_env_f1_cases).1 ["a".toList] ["a".toList] (by decide),
   (fs_find_env_f1_cases).2.1 ["a".toList] ["b".toList] (by decide) (by decide) (by decide)⟩

/-! ## C10 -/

/-- C10: the pass verdict compares the raw lists (order- and
multiplicity-sensitive) while the reward is computed over sets: an
exact list match passes, and a submission equal as a set but different
as a list earns reward 1 with a failing verdict. -/
theorem fs_find_env_order_sensitivity (s e : List (List Char)) :
    (s = e → (fsFindEnvScore s e).passed = true)
    ∧ (s.toFinset = e.toFinset → s ≠ e →
      (fsFindEnvScore s e).reward = 1 ∧ (fsFindEnvScore s e).passed = false) := by
  constructor
  · intro h
    simp [fsFindEnvScore, h]
  · intro hset hne
    refine ⟨fsScore_f1_of_toFinset_eq s e hset, ?_⟩
    simp [fsFindEnvScore, hne]

/-! ## Pytest subprocess wrappers (`src/core/tools.py` `run_pytests`,
`src/tasks/swe_slugify_fix/grade.py` `_run_pytest`,
`src/tasks/swe_dict_merge_fix/grade.py` `_run_pytest`)

Each wrapper is a single `subprocess.run` call; we embed the keyword
arguments each one passes.  `setsDontWriteBytecode` records whether the
wrapper copies `os.environ` and sets `PYTHONDONTWRITEBYTECODE="1"`. -/

/-- The arguments a pytest wrapper hands to `subprocess.run`. -/
structure SubprocessSpec where
  args : List (List Char)
  cwd : List Char
  timeoutSeconds : Option ℕ
  setsDontWriteBytecode : Bool
  captureOutput : Bool
  textMode : Bool
deriving Repr, DecidableEq

/-- `["pytest", "-q", "-p", "no:cacheprovider"]`, the argv used by
`run_pytests` (tools.py line 99) and the dict-merge `_run_pytest`
(grade.py line 38). -/
def pytestQuietNoCacheArgs : List (List Char) :=
  ["pytest".toList, "-q".toList, "-p".toList, "no:cacheprovider".toList]

/-- `run_pytests` (src/core/tools.py lines 93-110): pytest in the
sandbox root, bytecode caching disabled, output captured, `check=False`,
and no `timeout=` argument at all. -/
def run_pytests_call (sandbox : List Char) : SubprocessSpec :=
  { args := pytestQuietNoCacheArgs, cwd := sandbox, timeoutSeconds := none,
    setsDontWriteBytecode := true, captureOutput := true, textMode := true }

/-- `_run_pytest` of swe_slugify_fix (grade.py lines 47-54): pytest in
`sandbox/project` (the caller passes `sandbox_path / "project"`), output
captured, no `env=` override and no `timeout=`. -/
def slugify_run_pytest_call (sandbox : List Char) : SubprocessSpec :=
  { args := ["pytest".toList, "-q".toList], cwd := sandbox ++ "/project".toList,
    timeoutSeconds := none, setsDontWriteBytecode := false,
    captureOutput := true, textMode := true }

/-- `_run_pytest` of swe_dict_merge_fix (grade.py lines 31-49): pytest
in `sandbox/project`, bytecode caching disabled, output captured, and
`timeout=_PYTEST_TIMEOUT_SECONDS` with `_PYTEST_TIMEOUT_SECONDS = 60`. -/
def dict_merge_run_pytest_call (sandbox : List Char) : SubprocessSpec :=
  { args := pytestQuietNoCacheArgs, cwd := sandbox ++ "/project".toList,
    timeoutSeconds := some 60, setsDontWriteBytecode := true,
    captureOutput := true, textMode := true }

/-- How one pytest subprocess run ends: a normal exit with a return
code, or `subprocess.TimeoutExpired` carrying the partial output. -/
inductive PytestExec where
  | completed (returncode : Int) (stdout stderr : List Char)
  | timedOut (stdout stderr : List Char)
deriving Repr, DecidableEq

/-- The dict-merge `_run_pytest` result tuple
`(returncode, stdout, stderr, timed_out)`: a completed run keeps its
return code with `timed_out=False`; `TimeoutExpired` is caught and
reported as `(-1, stdout, stderr, True)` (grade.py lines 45-49). -/
def dict_merge_run_pytest : PytestExec → Int × List Char × List Char × Bool
  | .completed code out err => (code, out, err, false)
  | .timedOut out err => (-1, out, err, true)

/-! ## C2 -/

/-- C2 counterexample: the claim says every test-execution invocation
has a hard wall-clock timeout and bytecode caching disabled, but the
core `run_pytests` tool and the slugify grader's `_run_pytest` pass no
`timeout=` to `subprocess.run`, and the slugify wrapper does not set
`PYTHONDONTWRITEBYTECODE` either. -/
theorem pytest_no_timeout_counterexample :
    (run_pytests_call "/sb".toList).timeoutSeconds = none
    ∧ (slugify_run_pytest_call "/sb".toList).timeoutSeconds = none
    ∧ (slugify_run_pytest_call "/sb".toList).setsDontWriteBytecode = false :=
  ⟨rfl, rfl, rfl⟩

/-- C2 (amended): every pytest wrapper runs the runner as a subprocess
scoped to the sandbox (the core tool in the sandbox root, both graders
in `sandbox/project`) with output captured; the core tool and the
dict-merge wrapper disable bytecode caching; only the dict-merge
wrapper sets a hard timeout (60 seconds), and there a timeout is a
distinct outcome: the `timed_out` flag is true exactly on
`TimeoutExpired`, never on a normal nonzero exit. -/
theorem pytest_wrappers_characterized (sandbox : List Char) :
    ((run_pytests_call sandbox).cwd = sandbox
      ∧ (run_pytests_call sandbox).setsDontWriteBytecode = true
      ∧ (run_pytests_call sandbox).captureOutput = true
      ∧ (run_pytests_call sandbox).timeoutSeconds = none)
    ∧ ((slugify_run_pytest_call sandbox).cwd = sandbox ++ "/project".toList
      ∧ (slugify_run_pytest_call sandbox).captureOutput = true
      ∧ (slugify_run_pytest_call sandbox).timeoutSeconds = none
      ∧ (slugify_run_pytest_call sandbox).setsDontWriteBytecode = false)
    ∧ ((dict_merge_run_pytest_call sandbox).cwd = sandbox ++ "/project".toList
      ∧ (dict_merge_run_pytest_call sandbox).captureOutput = true
      ∧ (dict_merge_run_pytest_call sandbox).timeoutSeconds = some 60
      ∧ (dict_merge_run_pytest_call sandbox).setsDontWriteBytecode = true)
    ∧ (∀ out err, dict_merge_run_pytest (.timedOut out err) = (-1, out, err, true))
    ∧ (∀ code out err, code ≠ 0 →
        dict_merge_run_pytest (.completed code out err) = (code, out, err, false)) :=
  ⟨⟨rfl, rfl, rfl, rfl⟩, ⟨rfl, rfl, rfl, rfl⟩, ⟨rfl, rfl, rfl, rfl⟩,
    fun _ _ => rfl, fun _ _ _ _ => rfl⟩

theorem pytest_wrappers_characterized_witness :
    dict_merge_run_pytest (PytestExec.completed 2 [] []) = (2, [], [], false) :=
  (pytest_wrappers_characterized "/sb".toList).2.2.2.2 2 [] [] (by decide)

/-! ## Tool dispatch in the agent loop (`src/main.py` lines 220-276) -/

/-- A content item of a model response: a text block or a tool-use
block with its id, tool name and input. -/
inductive CItem where
  | text (s : List Char)
  | toolUse (id name : List Char) (input : Json)

/-- What one handler call does: return a result, raise an ordinary
`Exception` (including the assertion errors for malformed arguments and
the `TypeError` a `handler(**tool_input)` call raises on a bad
signature), or raise `KeyboardInterrupt`. -/
inductive HandlerOutcome where
  | ok (result : Json)
  | raises (msg : List Char)
  | interrupt

/-- The dispatch loop over `response.content` (main.py lines 220-276),
returning the `tool_results` list as (tool_use_id, result) pairs — the
source serializes `result` with `json.dumps` into the entry's
`content`.  A tool-use whose name is in `tool_handlers` runs the
handler; an ordinary exception is caught per call and recorded as the
payload \x7b"error": str(exc)\x7d, while `KeyboardInterrupt` is
re-raised and aborts the step (`Except.error`).  A tool-use whose name
is NOT in `tool_handlers` falls through the `if` with no `else`: no
tool result is appended for it. -/
def processContent (known : List (List Char))
    (handlers : List Char → Json → HandlerOutcome) :
    List CItem → Except Unit (List (List Char × Json))
  | [] => .ok []
  | .text _ :: rest => processContent known handlers rest
  | .toolUse i n inp :: rest =>
    if n ∈ known then
      match handlers n inp with
      | .ok r => (processContent known handlers rest).map (fun rs => (i, r) :: rs)
      | .raises msg => (processContent known handlers rest).map
          (fun rs => (i, Json.obj [("error".toList, Json.str msg)]) :: rs)
      | .interrupt => .error ()
    else processContent known handlers rest

/-- The per-call result the spec describes: what a single content item
contributes to `tool_results`, independently of the other items. -/
def dispatchItem (known : List (List Char))
    (handlers : List Char → Json → HandlerOutcome) : CItem → Option (List Char × Json)
  | .text _ => none
  | .toolUse i n inp =>
    if n ∈ known then
      match handlers n inp with
      | .ok r => some (i, r)
      | .raises msg => some (i, Json.obj [("error".toList, Json.str msg)])
      | .interrupt => none
    else none

/-! ## C3 -/

/-- C3 counterexample: a tool-use entry with an unknown tool name gets
NO tool result at all — the dispatch returns an empty result list, not
an error payload recorded under the call's id, contradicting the claim
that an unknown tool name is turned into an error payload recorded as
that call's tool result. -/
theorem dispatch_unknown_tool_counterexample :
    processContent ["run_pytests".toList] (fun _ _ => .ok .null)
      [CItem.toolUse "id1".toList "mystery_tool".toList .null] = .ok [] := rfl

/-- C3 (amended): when no call raises `KeyboardInterrupt`, the dispatch
never aborts the step and each content item is handled independently:
the result list is the per-item `dispatchItem` outputs in order, where
a known tool whose handler raises an ordinary exception contributes the
error payload under its own id, and an unknown tool name contributes
nothing (it is silently skipped rather than given an error result). -/
theorem dispatch_per_call_characterized (known : List (List Char))
    (handlers : List Char → Json → HandlerOutcome) (items : List CItem)
    (hno : ∀ i n inp, CItem.toolUse i n inp ∈ items → n ∈ known →
      handlers n inp ≠ .interrupt) :
    processContent known handlers items
      = .ok (items.filterMap (dispatchItem known handlers)) := by
  induction items with
  | nil => rfl
  | cons it rest ih =>
    have hrest : ∀ i n inp, CItem.toolUse i n inp ∈ rest → n ∈ known →
        handlers n inp ≠ .interrupt :=
      fun i n inp hm => hno i n inp (List.mem_cons_of_mem _ hm)
    cases it with
    | text s =>
      simp only [processContent, List.filterMap_cons, dispatchItem]
      exact ih hrest
    | toolUse i n inp =>
      by_cases hk : n ∈ known
      · have hni := hno i n inp (List.mem_cons_self _ _) hk
        cases hh : handlers n inp with
        | ok r =>
          simp only [processContent, List.filterMap_cons, dispatchItem, if_pos hk, hh,
            ih hrest, Except.map]
        | raises msg =>
          simp only [processContent, List.filterMap_cons, dispatchItem, if_pos hk, hh,
            ih hrest, Except.map]
        | interrupt => exact absurd hh hni
      · simp only [processContent, List.filterMap_cons, dispatchItem, if_neg hk]
        exact ih hrest

theorem dispatch_per_call_characterized_witness :
    processContent ["run_pytests".toList] (fun _ _ => .raises "boom".toList)
      [CItem.toolUse "a".toList "run_pytests".toList .null,
       CItem.toolUse "b".toList "mystery_tool".toList .null]
      = .ok [("a".toList, Json.obj [("error".toList, Json.str "boom".toList)])] := by
  rw [dispatch_per_call_characterized ["run_pytests".toList]
    (fun _ _ => .raises "boom".toList)
    [CItem.toolUse "a".toList "run_pytests".toList .null,
     CItem.toolUse "b".toList "mystery_tool".toList .null]
    (fun _ _ _ _ _ h => HandlerOutcome.noConfusion h)]
  rfl

/-! ## Model-request retry loop (`src/main.py` lines 187-209) -/

/-- How one `client.messages.create` attempt ends: a response, an
`OverloadedError`, or any other `Exception`. -/
inductive ApiOutcome where
  | success
  | overloaded
  | failure
deriving Repr, DecidableEq

/-- The retry loop's result: a response obtained on a given attempt, or
the exception re-raised after the final attempt; each carries the list
of `time.sleep` delays performed, in order. -/
inductive RetryResult where
  | ok (attempt : ℕ) (slept : List ℕ)
  | raisedOverloaded (slept : List ℕ)
  | raisedFailure (slept : List ℕ)
deriving Repr, DecidableEq

/-- One iteration of `for attempt in range(3)` with `remaining`
iterations left after this one: success breaks out of the loop; an
`OverloadedError` on the last attempt is re-raised and otherwise sleeps
`min(5, 2 ** attempt)`; any other exception on the last attempt is
re-raised and otherwise sleeps `2 ** attempt` (main.py lines 188-207). -/
def retryGo (sched : ℕ → ApiOutcome) (remaining attempt : ℕ) (slept : List ℕ) :
    RetryResult :=
  match sched attempt with
  | .success => .ok attempt slept.reverse
  | .overloaded =>
    match remaining with
    | 0 => .raisedOverloaded slept.reverse
    | r + 1 => retryGo sched r (attempt + 1) (min 5 (2 ^ attempt) :: slept)
  | .failure =>
    match remaining with
    | 0 => .raisedFailure slept.reverse
    | r + 1 => retryGo sched r (attempt + 1) (2 ^ attempt :: slept)
termination_by structural remaining

/-- The whole `for attempt in range(3)` loop: three attempts, so two
iterations remain after the first, and the `attempt == 2` re-raise is
the `remaining = 0` case. -/
def retryLoop (sched : ℕ → ApiOutcome) : RetryResult :=
  retryGo sched 2 0 []

/-- The backoff before the next attempt: `min(5, 2 ** attempt)` after
an `OverloadedError`, `2 ** attempt` after any other exception. -/
def backoffDelay : ApiOutcome → ℕ → ℕ
  | .overloaded, attempt => min 5 (2 ^ attempt)
  | _, attempt => 2 ^ attempt

/-! ## C9 -/

/-- C9 counterexample: a generic (non-overload) request fault does not
get merely one retry — a schedule failing generically on attempts 0 and
1 still succeeds on attempt 2, i.e. the loop granted it two retries
(sleeping 1 then 2 seconds), contradicting the claim that every other
request-level fault gets exactly one bounded retry before propagating
as fatal. -/
theorem retry_generic_two_retries_counterexample :
    retryLoop (fun n => if n ≤ 1 then ApiOutcome.failure else ApiOutcome.success)
      = RetryResult.ok 2 [1, 2] := rfl

/-- C9 (amended): the retry loop treats overload and generic faults
with the same bound — up to three attempts of the same request, the
exception re-raised once the third attempt fails — and exponential
backoff between attempts, capped at 5 seconds for overloads
(`min(5, 2 ** attempt)`) and uncapped (`2 ** attempt`) for other
faults. -/
theorem retry_loop_characterized (sched : ℕ → ApiOutcome) :
    (sched 0 = .success → retryLoop sched = .ok 0 [])
    ∧ (sched 0 ≠ .success → sched 1 = .success →
        retryLoop sched = .ok 1 [backoffDelay (sched 0) 0])
    ∧ (sched 0 ≠ .success → sched 1 ≠ .success → sched 2 = .success →
        retryLoop sched = .ok 2 [backoffDelay (sched 0) 0, backoffDelay (sched 1) 1])
    ∧ (sched 0 ≠ .success → sched 1 ≠ .success → sched 2 = .overloaded →
        retryLoop sched
          = .raisedOverloaded [backoffDelay (sched 0) 0, backoffDelay (sched 1) 1])
    ∧ (sched 0 ≠ .success → sched 1 ≠ .success → sched 2 = .failure →
        retryLoop sched
          = .raisedFailure [backoffDelay (sched 0) 0, backoffDelay (sched 1) 1]) := by
  refine ⟨?_, ?_, ?_, ?_, ?_⟩
  · intro h0
    simp [retryLoop, retryGo, h0]
  · intro h0 h1
    cases hc0 : sched 0 with
    | success => exact absurd hc0 h0
    | overloaded => simp [retryLoop, retryGo, hc0, h1, backoffDelay]
    | failure => simp [retryLoop, retryGo, hc0, h1, backoffDelay]
  · intro h0 h1 h2
    cases hc0 : sched 0 with
    | success => exact absurd hc0 h0
    | overloaded =>
      cases hc1 : sched 1 with
      | success => exact absurd hc1 h1
      | overloaded => simp [retryLoop, retryGo, hc0, hc1, h2, backoffDelay]
      | failure => simp [retryLoop, retryGo, hc0, hc1, h2, backoffDelay]
    | failure =>
      cases hc1 : sched 1 with
      | success => exact absurd hc1 h1
      | overloaded => simp [retryLoop, retryGo, hc0, hc1, h2, backoffDelay]
      | failure => simp [retryLoop, retryGo, hc0, hc1, h2, backoffDelay]
  · intro h0 h1 h2
    cases hc0 : sched 0 with
    | success => exact absurd hc0 h0
    | overloaded =>
      cases hc1 : sched 1 with
      | success => exact absurd hc1 h1
      | overloaded => simp [retryLoop, retryGo, hc0, hc1, h2, backoffDelay]
      | failure => simp [retryLoop, retryGo, hc0, hc1, h2, backoffDelay]
    | failure =>
      cases hc1 : sched 1 with
      | success => exact absurd hc1 h1
      | overloaded => simp [retryLoop, retryGo, hc0, hc1, h2, backoffDelay]
      | failure => simp [retryLoop, retryGo, hc0, hc1, h2, backoffDelay]
  · intro h0 h1 h2
    cases hc0 : sched 0 with
    | success => exact absurd hc0 h0
    | overloaded =>
      cases hc1 : sched 1 with
      | success => exact absurd hc1 h1
      | overloaded => simp [retryLoop, retryGo, hc0, hc1, h2, backoffDelay]
      | failure => simp [retryLoop, retryGo, hc0, hc1, h2, backoffDelay]
    | failure =>
      cases hc1 : sched 1 with
      | success => exact absurd hc1 h1
      | overloaded => simp [retryLoop, retryGo, hc0, hc1, h2, backoffDelay]
      | failure => simp [retryLoop, retryGo, hc0, hc1, h2, backoffDelay]

theorem retry_loop_characterized_witness :
    retryLoop (fun n => if n = 2 then ApiOutcome.success else ApiOutcome.overloaded)
      = RetryResult.ok 2 [1, 2] :=
  (retry_loop_characterized
    (fun n => if n = 2 then ApiOutcome.success else ApiOutcome.overloaded)).2.2.1
    (by decide) (by decide) (by decide)

theorem fs_find_env_order_sensitivity_witness :
    (fsFindEnvScore ["a".toList, "b".toList] ["a".toList, "b".toList]).passed = true
    ∧ (fsFindEnvScore ["b".toList, "a".toList] ["a".toList, "b".toList]).reward = 1
    ∧ (fsFindEnvScore ["b".toList, "a".toList] ["a".toList, "b".toList]).passed = false :=
  ⟨(fs_find_env_order_sensitivity _ _).1 rfl,
   ((fs_find_env_order_sensitivity ["b".toList, "a".toList]
      ["a".toList, "b".toList]).2 (by decide) (by decide)).1,
   ((fs_find_env_order_sensitivity ["b".toList, "a".toList]
      ["a".toList, "b".toList]).2 (by decide) (by decide)).2⟩

end RlTasks
